import Mathlib

/-!
# Verification of the prefix_varint codec

Shallow embedding of `src/lib.rs` of the `prefix_varint` crate.

* Machine integers are modelled as `Nat` (for `u8`/`u16`/`u32`/`u64`/`usize`)
  and `Int` (for `i64`), with explicit `% 2 ^ w` wherever the Rust code
  truncates or wraps.
* A byte buffer is a `List Nat` whose entries are below 256.
* The raw pointer primitives (`encode_prefix_uvarint`, `decode_prefix_uvarint`)
  work on a caller-supplied memory region.  The encoder returns the bytes it
  writes starting at `p` (which can be more than the reported length: the
  source writes whole `u16`/`u32`/`u64` words) together with the reported
  length.  The decoder returns `none` exactly when it would read past the end
  of the region (the undefined-behaviour case of the Rust source).
* The `bytes::Buf`/`BufMut` extension traits are modelled for the standard
  in-memory instances used throughout the crate (`Vec<u8>` / `&[u8]`): a
  cursor is the list of remaining bytes, a sink write is the list of appended
  bytes.  A buffer-level read returns `none` for a `bytes` primitive panic
  (which the code never triggers) and `some (v?, rest)` otherwise, where `v?`
  is the `Option<u64>` result of the Rust method and `rest` the remaining
  cursor contents.
-/

set_option maxRecDepth 10000
set_option maxHeartbeats 1000000

namespace PrefixVarint

/-- `MAX_LEN`: maximum number of bytes a single encoded uvarint will occupy. -/
def MAX_LEN : Nat := 9

/-- `MAX_VALUE`: max value for an n-byte length (the 10-entry constant array). -/
def MAX_VALUE : Nat → Nat
  | 0 => 0x0
  | 1 => 0x7f
  | 2 => 0x3fff
  | 3 => 0x1fffff
  | 4 => 0xfffffff
  | 5 => 0x7ffffffff
  | 6 => 0x3ffffffffff
  | 7 => 0x1ffffffffffff
  | 8 => 0xffffffffffffff
  | _ => 0xffffffffffffffff

/-- `TAG_PREFIX`: tag prefix value for an n-byte length to OR with the value
(the 9-entry constant array). -/
def TAG_PREFIX : Nat → Nat
  | 2 => 0x8000
  | 3 => 0xc00000
  | 4 => 0xe0000000
  | 5 => 0xf000000000
  | 6 => 0xf80000000000
  | 7 => 0xfc000000000000
  | 8 => 0xfe00000000000000
  | _ => 0x0

/-- `MAX_1BYTE_TAG : u8 = MAX_VALUE[1] as u8`. -/
def MAX_1BYTE_TAG : Nat := MAX_VALUE 1 % 256

/-- Two's-complement 64-bit pattern of an `i64` (`as u64` on a signed value). -/
def i64bits (v : Int) : Nat := (v % (2 ^ 64 : Int)).toNat

/-- Signed value of a 64-bit pattern (`as i64` on a `u64`). -/
def asI64 (u : Nat) : Int :=
  if u % 2 ^ 64 < 2 ^ 63 then ((u % 2 ^ 64 : Nat) : Int)
  else ((u % 2 ^ 64 : Nat) : Int) - 2 ^ 64

/-- `zigzag_encode(v: i64) -> u64 = ((v >> 63) ^ (v << 1)) as u64`.
`v >> 63` is the arithmetic shift (floor division by `2 ^ 63`), `v << 1` wraps
modulo `2 ^ 64`, and the xor is taken on the two's-complement bit patterns. -/
def zigzag_encode (v : Int) : Nat :=
  i64bits (v.fdiv (2 ^ 63)) ^^^ i64bits (v * 2)

/-- `zigzag_decode(v: u64) -> i64 = (v >> 1) as i64 ^ -(v as i64 & 1)`,
computed on bit patterns and reinterpreted as signed at the end. -/
def zigzag_decode (u : Nat) : Int :=
  asI64 ((u >>> 1) ^^^ i64bits (-((u &&& 1 : Nat) : Int)))

/-- The `n` big-endian bytes of `v % 2 ^ (8 * n)` (`to_be` byte order of an
`n`-byte machine word holding `v`). -/
def beBytes : Nat → Nat → List Nat
  | 0, _ => []
  | n + 1, v => v / 2 ^ (8 * n) % 256 :: beBytes n v

/-- Big-endian value of a byte list (`from_be` of the word read from memory). -/
def fromBE (l : List Nat) : Nat := l.foldl (fun acc b => acc * 256 + b) 0

/-- Count the leading one-bits among bits `k-1, ..., 0` of `b`. -/
def leadingOnesAux (b : Nat) : Nat → Nat
  | 0 => 0
  | k + 1 => if b.testBit k then leadingOnesAux b k + 1 else 0

/-- `u8::leading_ones`: number of leading one-bits of the byte `b`. -/
def leading_ones (b : Nat) : Nat := leadingOnesAux b 8

/-- `encode_prefix_uvarint_slow(v, p)`: the bytes written at `p` (whole
big-endian machine words, as in the source) and the reported length. -/
def encode_prefix_uvarint_slow (v : Nat) : List Nat × Nat :=
  if v ≤ MAX_VALUE 2 then (beBytes 2 (v ||| TAG_PREFIX 2), 2)
  else if v ≤ MAX_VALUE 3 then (beBytes 4 ((v ||| TAG_PREFIX 3) <<< 8), 3)
  else if v ≤ MAX_VALUE 4 then (beBytes 4 (v ||| TAG_PREFIX 4), 4)
  else if v ≤ MAX_VALUE 5 then (beBytes 8 ((v ||| TAG_PREFIX 5) <<< 24), 5)
  else if v ≤ MAX_VALUE 6 then (beBytes 8 ((v ||| TAG_PREFIX 6) <<< 16), 6)
  else if v ≤ MAX_VALUE 7 then (beBytes 8 ((v ||| TAG_PREFIX 7) <<< 8), 7)
  else if v ≤ MAX_VALUE 8 then (beBytes 8 (v ||| TAG_PREFIX 8), 8)
  else (0xff :: beBytes 8 v, 9)

/-- `encode_prefix_uvarint(v, p)`: bytes written at `p` and reported length. -/
def encode_prefix_uvarint (v : Nat) : List Nat × Nat :=
  if v ≤ MAX_VALUE 1 then ([v % 256], 1) else encode_prefix_uvarint_slow v

/-- `encode_prefix_varint(v, p)`. -/
def encode_prefix_varint (v : Int) : List Nat × Nat :=
  encode_prefix_uvarint (zigzag_encode v)

/-- The committed encoding of `v`: the first `len` of the bytes the raw
encoder writes (the fast path of `put_prefix_uvarint` advances by `len`). -/
def encoded (v : Nat) : List Nat :=
  (encode_prefix_uvarint v).1.take (encode_prefix_uvarint v).2

/-- `put_prefix_uvarint_slow(b, v)`: the bytes appended to the sink.
`put_u16`/`put_u32`/`put_u64` append the big-endian bytes of the word,
`put_uint(x, n)` appends the low `n` bytes of `x` big-endian. -/
def put_prefix_uvarint_slow (v : Nat) : List Nat :=
  if v < MAX_VALUE 2 then beBytes 2 (v ||| TAG_PREFIX 2)
  else if v < MAX_VALUE 3 then beBytes 3 (v ||| TAG_PREFIX 3)
  else if v < MAX_VALUE 4 then beBytes 4 (v ||| TAG_PREFIX 4)
  else if v < MAX_VALUE 5 then beBytes 5 (v ||| TAG_PREFIX 5)
  else if v < MAX_VALUE 6 then beBytes 6 (v ||| TAG_PREFIX 6)
  else if v < MAX_VALUE 7 then beBytes 7 (v ||| TAG_PREFIX 7)
  else if v < MAX_VALUE 8 then beBytes 8 (v ||| TAG_PREFIX 8)
  else 0xff :: beBytes 8 v

/-- `VarintBufMut::put_prefix_uvarint(b, v)`: the bytes appended to the sink,
as a function of the length of the contiguous writable chunk the sink
currently exposes (`chunk_mut().len()`). -/
def put_prefix_uvarint (chunkLen : Nat) (v : Nat) : List Nat :=
  if chunkLen ≥ MAX_LEN then encoded v
  else if v ≤ MAX_VALUE 1 then [v % 256]
  else put_prefix_uvarint_slow v

/-- `VarintBufMut::put_prefix_varint(b, v)`. -/
def put_prefix_varint (chunkLen : Nat) (v : Int) : List Nat :=
  put_prefix_uvarint chunkLen (zigzag_encode v)

/-- `read_unaligned` of an `n`-byte big-endian word at `p`; `none` when the
region holds fewer than `n` bytes (the out-of-bounds read the raw decoder's
contract forbids). -/
def read_be (n : Nat) (p : List Nat) : Option Nat :=
  if n ≤ p.length then some (fromBE (p.take n)) else none

/-- `decode_prefix_uvarint_slow(tag, p)` (`p` still points at the tag byte). -/
def decode_prefix_uvarint_slow (tag : Nat) (p : List Nat) : Option (Nat × Nat) :=
  match leading_ones tag with
  | 1 => (read_be 2 p).map fun r => (r &&& MAX_VALUE 2, 2)
  | 2 => (read_be 4 p).map fun r => ((r >>> 8) &&& MAX_VALUE 3, 3)
  | 3 => (read_be 4 p).map fun r => (r &&& MAX_VALUE 4, 4)
  | 4 => (read_be 8 p).map fun r => ((r >>> 24) &&& MAX_VALUE 5, 5)
  | 5 => (read_be 8 p).map fun r => ((r >>> 16) &&& MAX_VALUE 6, 6)
  | 6 => (read_be 8 p).map fun r => ((r >>> 8) &&& MAX_VALUE 7, 7)
  | 7 => (read_be 8 p).map fun r => (r &&& MAX_VALUE 8, 8)
  | _ => (read_be 8 (p.drop 1)).map fun r => (r, 9)

/-- `decode_prefix_uvarint(p)`: value and number of bytes consumed. -/
def decode_prefix_uvarint (p : List Nat) : Option (Nat × Nat) :=
  match p with
  | [] => none
  | tag :: _ =>
    if tag ≤ MAX_1BYTE_TAG then some (tag, 1) else decode_prefix_uvarint_slow tag p

/-- `decode_prefix_varint(p)`. -/
def decode_prefix_varint (p : List Nat) : Option (Int × Nat) :=
  (decode_prefix_uvarint p).map fun r => (zigzag_decode r.1, r.2)

/-- `Buf::get_uint(n)` (also `get_u8`/`get_u16`/`get_u32`/`get_u64`) on a byte
cursor: read `n` big-endian bytes and advance; `none` models the panic when
fewer than `n` bytes remain. -/
def get_uint (s : List Nat) (n : Nat) : Option (Nat × List Nat) :=
  if n ≤ s.length then some (fromBE (s.take n), s.drop n) else none

/-- `get_prefix_uvarint_slow(b, tag)`: `s` is the cursor after the tag byte was
consumed.  Result `some (v?, rest)` is the method's `Option<u64>` and the
remaining cursor; outer `none` models a `bytes` primitive panic. -/
def get_prefix_uvarint_slow (s : List Nat) (tag : Nat) : Option (Option Nat × List Nat) :=
  let remaining_bytes := leading_ones tag
  if s.length < remaining_bytes then some (none, [])
  else
    match remaining_bytes with
    | 1 => (get_uint s 1).map fun r => (some (((tag <<< 8) ||| r.1) &&& MAX_VALUE 2), r.2)
    | 2 => (get_uint s 2).map fun r => (some (((tag <<< 16) ||| r.1) &&& MAX_VALUE 3), r.2)
    | 3 => (get_uint s 3).map fun r => (some (((tag <<< 24) ||| r.1) &&& MAX_VALUE 4), r.2)
    | 4 => (get_uint s 4).map fun r => (some (((tag <<< 32) ||| r.1) &&& MAX_VALUE 5), r.2)
    | 5 => (get_uint s 5).map fun r => (some (((tag <<< 40) ||| r.1) &&& MAX_VALUE 6), r.2)
    | 6 => (get_uint s 6).map fun r => (some (((tag <<< 48) ||| r.1) &&& MAX_VALUE 7), r.2)
    | 7 => (get_uint s 7).map fun r => (some (((tag <<< 56) ||| r.1) &&& MAX_VALUE 8), r.2)
    | _ => (get_uint s 8).map fun r => (some r.1, r.2)

/-- `VarintBuf::get_prefix_uvarint()` for a cursor over a single contiguous
chunk (the `&[u8]` instance): `chunk()` is the whole remaining buffer. -/
def get_prefix_uvarint (s : List Nat) : Option (Option Nat × List Nat) :=
  if s.length ≥ MAX_LEN then
    (decode_prefix_uvarint s).map fun r => (some r.1, s.drop r.2)
  else
    match s with
    | [] => some (none, [])
    | tag :: rest =>
      if tag ≤ MAX_1BYTE_TAG then some (some tag, rest)
      else get_prefix_uvarint_slow rest tag

/-- `VarintBuf::get_prefix_varint()`. -/
def get_prefix_varint (s : List Nat) : Option (Option Int × List Nat) :=
  (get_prefix_uvarint s).map fun r => (r.1.map zigzag_decode, r.2)

/-- The `n`-byte (not necessarily minimal) wire form of `v`: the `n`-byte tag
prefix OR-ed into the big-endian bytes of `v`; for `n = 9` the sentinel byte
`0xff` followed by the eight big-endian bytes of `v`. -/
def nonMinEnc (n v : Nat) : List Nat :=
  if n = 9 then 0xff :: beBytes 8 v else beBytes n (v ||| TAG_PREFIX n)

/-- Bytes of a sequence of values written with `put_prefix_uvarint` into one
sink that always exposes at least `MAX_LEN` contiguous writable bytes (as a
`Vec<u8>` sink does). -/
def putSeq (vs : List Nat) : List Nat :=
  (vs.map (put_prefix_uvarint MAX_LEN)).flatten

/-- Read `n` values by repeated `get_prefix_uvarint` cursor reads, stopping
early on a `None` result; returns the values and the final cursor. -/
def getSeq : Nat → List Nat → List Nat × List Nat
  | 0, s => ([], s)
  | n + 1, s =>
    match get_prefix_uvarint s with
    | some (some v, s') => ((getSeq n s').1.cons v, (getSeq n s').2)
    | some (none, s') => ([], s')
    | none => ([], s)

/-! ### Byte-list lemmas -/

theorem beBytes_length (n v : Nat) : (beBytes n v).length = n := by
  induction n generalizing v with
  | zero => rfl
  | succ n ih => simp [beBytes, ih]

theorem beBytes_lt (n v : Nat) : ∀ b ∈ beBytes n v, b < 256 := by
  induction n generalizing v with
  | zero => simp [beBytes]
  | succ n ih =>
    intro b hb
    simp only [beBytes, List.mem_cons] at hb
    rcases hb with rfl | hb
    · exact Nat.mod_lt _ (by norm_num)
    · exact ih v b hb

theorem foldl_be_acc (l : List Nat) :
    ∀ acc, l.foldl (fun acc b => acc * 256 + b) acc = acc * 256 ^ l.length + fromBE l := by
  induction l with
  | nil => intro acc; simp [fromBE]
  | cons x l ih =>
    intro acc
    simp only [List.foldl_cons, List.length_cons, fromBE]
    rw [ih (acc * 256 + x), ih (0 * 256 + x)]
    ring

theorem fromBE_append (a b : List Nat) :
    fromBE (a ++ b) = fromBE a * 256 ^ b.length + fromBE b := by
  simp only [fromBE, List.foldl_append]
  rw [foldl_be_acc b]
  rfl

theorem fromBE_cons (b : Nat) (l : List Nat) :
    fromBE (b :: l) = b * 256 ^ l.length + fromBE l := by
  have h := fromBE_append [b] l
  simpa [fromBE] using h

theorem two_pow_eight_mul (n : Nat) : 256 ^ n = 2 ^ (8 * n) := by
  rw [pow_mul]; norm_num

theorem fromBE_beBytes (n v : Nat) : fromBE (beBytes n v) = v % 2 ^ (8 * n) := by
  induction n generalizing v with
  | zero => simp [beBytes, fromBE, Nat.mod_one]
  | succ n ih =>
    rw [show beBytes (n + 1) v = v / 2 ^ (8 * n) % 256 :: beBytes n v from rfl,
      fromBE_cons, beBytes_length, ih, two_pow_eight_mul,
      show 2 ^ (8 * (n + 1)) = 2 ^ (8 * n) * 256 by rw [Nat.mul_add, pow_add]; norm_num,
      Nat.mod_mul]
    ring

theorem fromBE_lt (l : List Nat) (h : ∀ b ∈ l, b < 256) :
    fromBE l < 2 ^ (8 * l.length) := by
  rw [← two_pow_eight_mul]
  induction l with
  | nil => simp [fromBE]
  | cons x l ih =>
    rw [fromBE_cons]
    have hx : x < 256 := h x (List.mem_cons_self x l)
    have hl := ih fun b hb => h b (List.mem_cons_of_mem x hb)
    calc x * 256 ^ l.length + fromBE l
        < x * 256 ^ l.length + 256 ^ l.length := by omega
      _ = (x + 1) * 256 ^ l.length := by ring
      _ ≤ 256 * 256 ^ l.length := Nat.mul_le_mul_right _ (by omega)
      _ = 256 ^ (x :: l).length := by rw [List.length_cons, pow_succ]; ring

theorem beBytes_add (m n v : Nat) :
    beBytes (m + n) v = beBytes m (v / 2 ^ (8 * n)) ++ beBytes n v := by
  induction m generalizing v with
  | zero => simp [beBytes]
  | succ m ih =>
    rw [show m + 1 + n = (m + n) + 1 by omega]
    rw [show beBytes (m + n + 1) v = v / 2 ^ (8 * (m + n)) % 256 :: beBytes (m + n) v from rfl]
    rw [ih,
      show beBytes (m + 1) (v / 2 ^ (8 * n))
        = v / 2 ^ (8 * n) / 2 ^ (8 * m) % 256 :: beBytes m (v / 2 ^ (8 * n)) from rfl]
    rw [Nat.div_div_eq_div_mul, ← pow_add,
      show 8 * n + 8 * m = 8 * (m + n) by ring]
    rfl

theorem beBytes_take (m n v : Nat) (h : m ≤ n) :
    (beBytes n v).take m = beBytes m (v / 2 ^ (8 * (n - m))) := by
  conv_lhs => rw [show n = m + (n - m) by omega, beBytes_add]
  rw [List.take_left' (beBytes_length _ _)]

/-! ### `leading_ones` on byte ranges -/

theorem leading_ones_of_le_7f : ∀ t, t < 256 → t ≤ 0x7f → leading_ones t = 0 := by decide

theorem leading_ones_eq_1 : ∀ t, t < 256 → 0x80 ≤ t → t ≤ 0xbf → leading_ones t = 1 := by decide

theorem leading_ones_eq_2 : ∀ t, t < 256 → 0xc0 ≤ t → t ≤ 0xdf → leading_ones t = 2 := by decide

theorem leading_ones_eq_3 : ∀ t, t < 256 → 0xe0 ≤ t → t ≤ 0xef → leading_ones t = 3 := by decide

theorem leading_ones_eq_4 : ∀ t, t < 256 → 0xf0 ≤ t → t ≤ 0xf7 → leading_ones t = 4 := by decide

theorem leading_ones_eq_5 : ∀ t, t < 256 → 0xf8 ≤ t → t ≤ 0xfb → leading_ones t = 5 := by decide

theorem leading_ones_eq_6 : ∀ t, t < 256 → 0xfc ≤ t → t ≤ 0xfd → leading_ones t = 6 := by decide

theorem leading_ones_eq_7 : leading_ones 0xfe = 7 := by decide

theorem leading_ones_eq_8 : leading_ones 0xff = 8 := by decide

theorem leading_ones_bounds : ∀ t, t < 256 → 0x7f < t → 1 ≤ leading_ones t ∧ leading_ones t ≤ 8 := by
  decide

/-! ### OR-ing a tag prefix into a value is addition (the bits are disjoint) -/

theorem lor_two_pow_mul {i a v : Nat} (hv : v < 2 ^ i) :
    v ||| 2 ^ i * a = 2 ^ i * a + v := by
  rw [Nat.lor_comm]
  exact (Nat.mul_add_lt_is_or hv a).symm

theorem lor_tag2 {v : Nat} (hv : v ≤ 0x3fff) : v ||| TAG_PREFIX 2 = 0x8000 + v := by
  have h := lor_two_pow_mul (i := 14) (a := 2) (v := v) (by omega)
  norm_num at h
  rw [show TAG_PREFIX 2 = 0x8000 from rfl, h]

theorem lor_tag3 {v : Nat} (hv : v ≤ 0x1fffff) : v ||| TAG_PREFIX 3 = 0xc00000 + v := by
  have h := lor_two_pow_mul (i := 22) (a := 3) (v := v) (by omega)
  norm_num at h
  rw [show TAG_PREFIX 3 = 0xc00000 from rfl, h]

theorem lor_tag4 {v : Nat} (hv : v ≤ 0xfffffff) : v ||| TAG_PREFIX 4 = 0xe0000000 + v := by
  have h := lor_two_pow_mul (i := 29) (a := 7) (v := v) (by omega)
  norm_num at h
  rw [show TAG_PREFIX 4 = 0xe0000000 from rfl, h]

theorem lor_tag5 {v : Nat} (hv : v ≤ 0x7ffffffff) : v ||| TAG_PREFIX 5 = 0xf000000000 + v := by
  have h := lor_two_pow_mul (i := 36) (a := 15) (v := v) (by omega)
  norm_num at h
  rw [show TAG_PREFIX 5 = 0xf000000000 from rfl, h]

theorem lor_tag6 {v : Nat} (hv : v ≤ 0x3ffffffffff) :
    v ||| TAG_PREFIX 6 = 0xf80000000000 + v := by
  have h := lor_two_pow_mul (i := 43) (a := 31) (v := v) (by omega)
  norm_num at h
  rw [show TAG_PREFIX 6 = 0xf80000000000 from rfl, h]

theorem lor_tag7 {v : Nat} (hv : v ≤ 0x1ffffffffffff) :
    v ||| TAG_PREFIX 7 = 0xfc000000000000 + v := by
  have h := lor_two_pow_mul (i := 50) (a := 63) (v := v) (by omega)
  norm_num at h
  rw [show TAG_PREFIX 7 = 0xfc000000000000 from rfl, h]

theorem lor_tag8 {v : Nat} (hv : v ≤ 0xffffffffffffff) :
    v ||| TAG_PREFIX 8 = 0xfe00000000000000 + v := by
  have h := lor_two_pow_mul (i := 57) (a := 127) (v := v) (by omega)
  norm_num at h
  rw [show TAG_PREFIX 8 = 0xfe00000000000000 from rfl, h]

/-! ### XOR with an all-ones mask is subtraction from the mask -/

theorem xor_ones {n x : Nat} (hx : x < 2 ^ n) : x ^^^ (2 ^ n - 1) = 2 ^ n - 1 - x := by
  induction n generalizing x with
  | zero =>
    simp only [pow_zero] at hx
    interval_cases x
    decide
  | succ n ih =>
    have hpow : 2 ^ (n + 1) = 2 ^ n + 2 ^ n := by rw [pow_succ]; omega
    rcases Nat.lt_or_ge x (2 ^ n) with h | h
    · have hz : x ^^^ (2 ^ n - 1) < 2 ^ n :=
        Nat.xor_lt_two_pow h (by omega)
      have key : x ^^^ (2 ^ (n + 1) - 1) = 2 ^ n + (x ^^^ (2 ^ n - 1)) := by
        apply Nat.eq_of_testBit_eq
        intro i
        rcases Nat.lt_trichotomy i n with hi | rfl | hi
        · rw [Nat.testBit_two_pow_add_gt hi]
          simp [Nat.testBit_two_pow_sub_one, hi, Nat.lt_succ_of_lt hi]
        · rw [Nat.testBit_two_pow_add_eq]
          simp [Nat.testBit_two_pow_sub_one, Nat.testBit_lt_two_pow h,
            Nat.testBit_lt_two_pow hz]
        · have h1 : x < 2 ^ i := lt_of_lt_of_le h (Nat.pow_le_pow_right (by omega) (by omega))
          have h2 : 2 ^ n + (x ^^^ (2 ^ n - 1)) < 2 ^ i := by
            calc 2 ^ n + (x ^^^ (2 ^ n - 1)) < 2 ^ n + 2 ^ n := by omega
              _ = 2 ^ (n + 1) := by omega
              _ ≤ 2 ^ i := Nat.pow_le_pow_right (by omega) (by omega)
          rw [Nat.testBit_lt_two_pow h2]
          simp [Nat.testBit_two_pow_sub_one, Nat.testBit_lt_two_pow h1,
            show ¬i < n + 1 by omega]
      have hih := ih h
      omega
    · obtain ⟨y, rfl⟩ : ∃ y, x = 2 ^ n + y := ⟨x - 2 ^ n, by omega⟩
      have hy : y < 2 ^ n := by omega
      have hz : y ^^^ (2 ^ n - 1) < 2 ^ n := Nat.xor_lt_two_pow hy (by omega)
      have key : (2 ^ n + y) ^^^ (2 ^ (n + 1) - 1) = y ^^^ (2 ^ n - 1) := by
        apply Nat.eq_of_testBit_eq
        intro i
        rcases Nat.lt_trichotomy i n with hi | rfl | hi
        · rw [Nat.testBit_xor, Nat.testBit_two_pow_add_gt hi]
          simp [Nat.testBit_two_pow_sub_one, hi, Nat.lt_succ_of_lt hi]
        · rw [Nat.testBit_xor, Nat.testBit_two_pow_add_eq]
          simp [Nat.testBit_two_pow_sub_one, Nat.testBit_lt_two_pow hy,
            Nat.testBit_lt_two_pow hz]
        · have h1 : 2 ^ n + y < 2 ^ i := by
            calc 2 ^ n + y < 2 ^ n + 2 ^ n := by omega
              _ = 2 ^ (n + 1) := by omega
              _ ≤ 2 ^ i := Nat.pow_le_pow_right (by omega) (by omega)
          have h2 : y ^^^ (2 ^ n - 1) < 2 ^ i :=
            lt_of_lt_of_le hz (Nat.pow_le_pow_right (by omega) (by omega))
          rw [Nat.testBit_xor, Nat.testBit_lt_two_pow h1, Nat.testBit_lt_two_pow h2]
          simp [Nat.testBit_two_pow_sub_one, show ¬i < n + 1 by omega]
      have hih := ih hy
      omega

/-! ### Zigzag transform -/

theorem i64bits_lt (v : Int) : i64bits v < 2 ^ 64 := by
  unfold i64bits
  have h1 : 0 ≤ v % (2 ^ 64 : Int) := Int.emod_nonneg v (by norm_num)
  have h2 : v % (2 ^ 64 : Int) < 2 ^ 64 := Int.emod_lt_of_pos v (by norm_num)
  omega

theorem zigzag_encode_lt (v : Int) : zigzag_encode v < 2 ^ 64 :=
  Nat.xor_lt_two_pow (i64bits_lt _) (i64bits_lt _)

theorem zigzag_encode_nonneg (v : Int) (h1 : 0 ≤ v) (h2 : v < 2 ^ 63) :
    zigzag_encode v = 2 * v.toNat := by
  unfold zigzag_encode
  rw [Int.fdiv_eq_ediv _ (by norm_num), Int.ediv_eq_zero_of_lt h1 h2,
    show i64bits 0 = 0 from rfl, Nat.zero_xor]
  unfold i64bits
  rw [Int.emod_eq_of_lt (by omega) (by omega)]
  omega

theorem zigzag_encode_neg (v : Int) (h1 : -(2 ^ 63) ≤ v) (h2 : v < 0) :
    zigzag_encode v = 2 ^ 64 - 1 - 2 * (v + 2 ^ 63).toNat := by
  unfold zigzag_encode
  have hfd : v.fdiv (2 ^ 63) = -1 := by
    rw [Int.fdiv_eq_ediv _ (by norm_num)]
    omega
  have hb : i64bits (v * 2) = 2 * (v + 2 ^ 63).toNat := by
    unfold i64bits
    rw [show v * 2 % (2 ^ 64 : Int) = (v * 2 + 2 ^ 64) % (2 ^ 64 : Int) by omega,
      Int.emod_eq_of_lt (by omega) (by omega)]
    omega
  have hones : i64bits (-1) = 2 ^ 64 - 1 := by decide
  have hlt : 2 * (v + 2 ^ 63).toNat < 2 ^ 64 := by omega
  rw [hfd, hb, hones, Nat.xor_comm, xor_ones hlt]

theorem zigzag_decode_encode (v : Int) (h1 : -(2 ^ 63) ≤ v) (h2 : v < 2 ^ 63) :
    zigzag_decode (zigzag_encode v) = v := by
  rcases Int.lt_or_le v 0 with hneg | hpos
  · rw [zigzag_encode_neg v h1 hneg]
    set m : Nat := (v + 2 ^ 63).toNat with hm
    have hmlt : m < 2 ^ 63 := by omega
    unfold zigzag_decode
    have hand : (2 ^ 64 - 1 - 2 * m) &&& 1 = 1 := by
      rw [Nat.and_one_is_mod]; omega
    have hshift : (2 ^ 64 - 1 - 2 * m) >>> 1 = 2 ^ 63 - 1 - m := by
      rw [Nat.shiftRight_eq_div_pow]; omega
    have hones : i64bits (-((1 : Nat) : Int)) = 2 ^ 64 - 1 := by decide
    rw [hand, hshift, hones,
      xor_ones (show 2 ^ 63 - 1 - m < 2 ^ 64 by omega),
      show 2 ^ 64 - 1 - (2 ^ 63 - 1 - m) = 2 ^ 63 + m by omega]
    unfold asI64
    rw [Nat.mod_eq_of_lt (by omega)]
    rw [if_neg (by omega)]
    omega
  · rw [zigzag_encode_nonneg v hpos h2]
    unfold zigzag_decode
    have hand : 2 * v.toNat &&& 1 = 0 := by
      rw [Nat.and_one_is_mod]; omega
    have hshift : (2 * v.toNat) >>> 1 = v.toNat := by
      rw [Nat.shiftRight_eq_div_pow]; omega
    have hz : i64bits (-((0 : Nat) : Int)) = 0 := by decide
    rw [hand, hshift, hz, Nat.xor_zero]
    unfold asI64
    rw [Nat.mod_eq_of_lt (by omega)]
    rw [if_pos (by omega)]
    omega

/-! ### The raw decoder on (not necessarily minimal) wire forms -/

theorem decode_tag1 (v : Nat) (hv : v ≤ 0x7f) (rest : List Nat) :
    decode_prefix_uvarint (v :: rest) = some (v, 1) := by
  simp only [decode_prefix_uvarint]
  rw [if_pos (by simp only [MAX_1BYTE_TAG, MAX_VALUE]; omega)]

theorem decode_nonMin2 (v : Nat) (hv : v ≤ 0x3fff) (rest : List Nat) :
    decode_prefix_uvarint (nonMinEnc 2 v ++ rest) = some (v, 2) := by
  have henc : nonMinEnc 2 v = beBytes 2 (0x8000 + v) := by
    simp [nonMinEnc, lor_tag2 hv]
  have hcons : beBytes 2 (0x8000 + v)
      = (0x8000 + v) / 2 ^ 8 % 256 :: beBytes 1 (0x8000 + v) := rfl
  have htag : ¬((0x8000 + v) / 2 ^ 8 % 256 ≤ MAX_1BYTE_TAG) := by
    simp only [MAX_1BYTE_TAG, MAX_VALUE]
    omega
  have hlo : leading_ones ((0x8000 + v) / 2 ^ 8 % 256) = 1 :=
    leading_ones_eq_1 _ (by omega) (by omega) (by omega)
  rw [henc, hcons, List.cons_append]
  simp only [decode_prefix_uvarint, htag, if_false, decode_prefix_uvarint_slow, hlo]
  rw [read_be,
    if_pos (by simp only [List.length_cons, List.length_append, beBytes_length]; omega),
    ← List.cons_append, ← hcons, List.take_left' (beBytes_length 2 _), fromBE_beBytes]
  simp only [Option.map_some', Option.some.injEq, Prod.mk.injEq,
    show MAX_VALUE 2 = 2 ^ 14 - 1 by norm_num [MAX_VALUE],
    Nat.and_pow_two_sub_one_eq_mod]
  exact ⟨by omega, trivial⟩

theorem decode_nonMin3 (v : Nat) (hv : v ≤ 0x1fffff) (z : Nat) (hz : z < 256)
    (rest : List Nat) :
    decode_prefix_uvarint (nonMinEnc 3 v ++ z :: rest) = some (v, 3) := by
  have henc : nonMinEnc 3 v = beBytes 3 (0xc00000 + v) := by
    simp [nonMinEnc, lor_tag3 hv]
  have hcons : beBytes 3 (0xc00000 + v)
      = (0xc00000 + v) / 2 ^ 16 % 256 :: beBytes 2 (0xc00000 + v) := rfl
  have htag : ¬((0xc00000 + v) / 2 ^ 16 % 256 ≤ MAX_1BYTE_TAG) := by
    simp only [MAX_1BYTE_TAG, MAX_VALUE]
    omega
  have hlo : leading_ones ((0xc00000 + v) / 2 ^ 16 % 256) = 2 :=
    leading_ones_eq_2 _ (by omega) (by omega) (by omega)
  rw [henc, hcons, List.cons_append]
  simp only [decode_prefix_uvarint, htag, if_false, decode_prefix_uvarint_slow, hlo]
  rw [read_be,
    if_pos (by simp only [List.length_cons, List.length_append, beBytes_length]; omega),
    ← List.cons_append, ← hcons,
    show (z :: rest : List Nat) = [z] ++ rest from rfl, ← List.append_assoc,
    List.take_left' (by simp [beBytes_length]), fromBE_append, fromBE_beBytes]
  simp only [fromBE, List.foldl, List.length_cons, List.length_nil, Option.map_some',
    Option.some.injEq, Prod.mk.injEq, Nat.shiftRight_eq_div_pow,
    show MAX_VALUE 3 = 2 ^ 21 - 1 by norm_num [MAX_VALUE],
    Nat.and_pow_two_sub_one_eq_mod]
  exact ⟨by omega, trivial⟩

theorem decode_nonMin4 (v : Nat) (hv : v ≤ 0xfffffff) (rest : List Nat) :
    decode_prefix_uvarint (nonMinEnc 4 v ++ rest) = some (v, 4) := by
  have henc : nonMinEnc 4 v = beBytes 4 (0xe0000000 + v) := by
    simp [nonMinEnc, lor_tag4 hv]
  have hcons : beBytes 4 (0xe0000000 + v)
      = (0xe0000000 + v) / 2 ^ 24 % 256 :: beBytes 3 (0xe0000000 + v) := rfl
  have htag : ¬((0xe0000000 + v) / 2 ^ 24 % 256 ≤ MAX_1BYTE_TAG) := by
    simp only [MAX_1BYTE_TAG, MAX_VALUE]
    omega
  have hlo : leading_ones ((0xe0000000 + v) / 2 ^ 24 % 256) = 3 :=
    leading_ones_eq_3 _ (by omega) (by omega) (by omega)
  rw [henc, hcons, List.cons_append]
  simp only [decode_prefix_uvarint, htag, if_false, decode_prefix_uvarint_slow, hlo]
  rw [read_be,
    if_pos (by simp only [List.length_cons, List.length_append, beBytes_length]; omega),
    ← List.cons_append, ← hcons, List.take_left' (beBytes_length 4 _), fromBE_beBytes]
  simp only [Option.map_some', Option.some.injEq, Prod.mk.injEq,
    show MAX_VALUE 4 = 2 ^ 28 - 1 by norm_num [MAX_VALUE],
    Nat.and_pow_two_sub_one_eq_mod]
  exact ⟨by omega, trivial⟩

theorem decode_nonMin5 (v : Nat) (hv : v ≤ 0x7ffffffff) (z1 z2 z3 : Nat)
    (hz1 : z1 < 256) (hz2 : z2 < 256) (hz3 : z3 < 256) (rest : List Nat) :
    decode_prefix_uvarint (nonMinEnc 5 v ++ z1 :: z2 :: z3 :: rest) = some (v, 5) := by
  have henc : nonMinEnc 5 v = beBytes 5 (0xf000000000 + v) := by
    simp [nonMinEnc, lor_tag5 hv]
  have hcons : beBytes 5 (0xf000000000 + v)
      = (0xf000000000 + v) / 2 ^ 32 % 256 :: beBytes 4 (0xf000000000 + v) := rfl
  have htag : ¬((0xf000000000 + v) / 2 ^ 32 % 256 ≤ MAX_1BYTE_TAG) := by
    simp only [MAX_1BYTE_TAG, MAX_VALUE]
    omega
  have hlo : leading_ones ((0xf000000000 + v) / 2 ^ 32 % 256) = 4 :=
    leading_ones_eq_4 _ (by omega) (by omega) (by omega)
  rw [henc, hcons, List.cons_append]
  simp only [decode_prefix_uvarint, htag, if_false, decode_prefix_uvarint_slow, hlo]
  rw [read_be,
    if_pos (by simp only [List.length_cons, List.length_append, beBytes_length]; omega),
    ← List.cons_append, ← hcons,
    show (z1 :: z2 :: z3 :: rest : List Nat) = [z1, z2, z3] ++ rest from rfl,
    ← List.append_assoc,
    List.take_left' (by simp [beBytes_length]), fromBE_append, fromBE_beBytes]
  simp only [fromBE, List.foldl, List.length_cons, List.length_nil, Option.map_some',
    Option.some.injEq, Prod.mk.injEq, Nat.shiftRight_eq_div_pow,
    show MAX_VALUE 5 = 2 ^ 35 - 1 by norm_num [MAX_VALUE],
    Nat.and_pow_two_sub_one_eq_mod]
  exact ⟨by omega, trivial⟩

theorem decode_nonMin6 (v : Nat) (hv : v ≤ 0x3ffffffffff) (z1 z2 : Nat)
    (hz1 : z1 < 256) (hz2 : z2 < 256) (rest : List Nat) :
    decode_prefix_uvarint (nonMinEnc 6 v ++ z1 :: z2 :: rest) = some (v, 6) := by
  have henc : nonMinEnc 6 v = beBytes 6 (0xf80000000000 + v) := by
    simp [nonMinEnc, lor_tag6 hv]
  have hcons : beBytes 6 (0xf80000000000 + v)
      = (0xf80000000000 + v) / 2 ^ 40 % 256 :: beBytes 5 (0xf80000000000 + v) := rfl
  have htag : ¬((0xf80000000000 + v) / 2 ^ 40 % 256 ≤ MAX_1BYTE_TAG) := by
    simp only [MAX_1BYTE_TAG, MAX_VALUE]
    omega
  have hlo : leading_ones ((0xf80000000000 + v) / 2 ^ 40 % 256) = 5 :=
    leading_ones_eq_5 _ (by omega) (by omega) (by omega)
  rw [henc, hcons, List.cons_append]
  simp only [decode_prefix_uvarint, htag, if_false, decode_prefix_uvarint_slow, hlo]
  rw [read_be,
    if_pos (by simp only [List.length_cons, List.length_append, beBytes_length]; omega),
    ← List.cons_append, ← hcons,
    show (z1 :: z2 :: rest : List Nat) = [z1, z2] ++ rest from rfl,
    ← List.append_assoc,
    List.take_left' (by simp [beBytes_length]), fromBE_append, fromBE_beBytes]
  simp only [fromBE, List.foldl, List.length_cons, List.length_nil, Option.map_some',
    Option.some.injEq, Prod.mk.injEq, Nat.shiftRight_eq_div_pow,
    show MAX_VALUE 6 = 2 ^ 42 - 1 by norm_num [MAX_VALUE],
    Nat.and_pow_two_sub_one_eq_mod]
  exact ⟨by omega, trivial⟩

theorem decode_nonMin7 (v : Nat) (hv : v ≤ 0x1ffffffffffff) (z : Nat) (hz : z < 256)
    (rest : List Nat) :
    decode_prefix_uvarint (nonMinEnc 7 v ++ z :: rest) = some (v, 7) := by
  have henc : nonMinEnc 7 v = beBytes 7 (0xfc000000000000 + v) := by
    simp [nonMinEnc, lor_tag7 hv]
  have hcons : beBytes 7 (0xfc000000000000 + v)
      = (0xfc000000000000 + v) / 2 ^ 48 % 256 :: beBytes 6 (0xfc000000000000 + v) := rfl
  have htag : ¬((0xfc000000000000 + v) / 2 ^ 48 % 256 ≤ MAX_1BYTE_TAG) := by
    simp only [MAX_1BYTE_TAG, MAX_VALUE]
    omega
  have hlo : leading_ones ((0xfc000000000000 + v) / 2 ^ 48 % 256) = 6 :=
    leading_ones_eq_6 _ (by omega) (by omega) (by omega)
  rw [henc, hcons, List.cons_append]
  simp only [decode_prefix_uvarint, htag, if_false, decode_prefix_uvarint_slow, hlo]
  rw [read_be,
    if_pos (by simp only [List.length_cons, List.length_append, beBytes_length]; omega),
    ← List.cons_append, ← hcons,
    show (z :: rest : List Nat) = [z] ++ rest from rfl, ← List.append_assoc,
    List.take_left' (by simp [beBytes_length]), fromBE_append, fromBE_beBytes]
  simp only [fromBE, List.foldl, List.length_cons, List.length_nil, Option.map_some',
    Option.some.injEq, Prod.mk.injEq, Nat.shiftRight_eq_div_pow,
    show MAX_VALUE 7 = 2 ^ 49 - 1 by norm_num [MAX_VALUE],
    Nat.and_pow_two_sub_one_eq_mod]
  exact ⟨by omega, trivial⟩

theorem decode_nonMin8 (v : Nat) (hv : v ≤ 0xffffffffffffff) (rest : List Nat) :
    decode_prefix_uvarint (nonMinEnc 8 v ++ rest) = some (v, 8) := by
  have henc : nonMinEnc 8 v = beBytes 8 (0xfe00000000000000 + v) := by
    simp [nonMinEnc, lor_tag8 hv]
  have hcons : beBytes 8 (0xfe00000000000000 + v)
      = (0xfe00000000000000 + v) / 2 ^ 56 % 256 :: beBytes 7 (0xfe00000000000000 + v) := rfl
  have htag : ¬((0xfe00000000000000 + v) / 2 ^ 56 % 256 ≤ MAX_1BYTE_TAG) := by
    simp only [MAX_1BYTE_TAG, MAX_VALUE]
    omega
  have harg : (0xfe00000000000000 + v) / 2 ^ 56 % 256 = 0xfe := by omega
  have hlo : leading_ones ((0xfe00000000000000 + v) / 2 ^ 56 % 256) = 7 := by
    rw [harg]
    exact leading_ones_eq_7
  rw [henc, hcons, List.cons_append]
  simp only [decode_prefix_uvarint, htag, if_false, decode_prefix_uvarint_slow, hlo]
  rw [read_be,
    if_pos (by simp only [List.length_cons, List.length_append, beBytes_length]; omega),
    ← List.cons_append, ← hcons, List.take_left' (beBytes_length 8 _), fromBE_beBytes]
  simp only [Option.map_some', Option.some.injEq, Prod.mk.injEq,
    show MAX_VALUE 8 = 2 ^ 56 - 1 by norm_num [MAX_VALUE],
    Nat.and_pow_two_sub_one_eq_mod]
  exact ⟨by omega, trivial⟩

theorem decode_nonMin9 (v : Nat) (hv : v < 2 ^ 64) (rest : List Nat) :
    decode_prefix_uvarint (nonMinEnc 9 v ++ rest) = some (v, 9) := by
  have henc : nonMinEnc 9 v ++ rest = 0xff :: (beBytes 8 v ++ rest) := by
    simp [nonMinEnc]
  rw [henc]
  have htag : ¬((0xff : Nat) ≤ MAX_1BYTE_TAG) := by
    simp only [MAX_1BYTE_TAG, MAX_VALUE]
    omega
  simp only [decode_prefix_uvarint, htag, if_false, decode_prefix_uvarint_slow,
    leading_ones_eq_8]
  rw [read_be,
    if_pos (by simp [List.length_append, beBytes_length]),
    List.drop_succ_cons, List.drop_zero,
    List.take_left' (beBytes_length 8 v), fromBE_beBytes]
  simp only [Option.map_some', Option.some.injEq, Prod.mk.injEq]
  exact ⟨by omega, trivial⟩

/-! ### The buffer-layer reader on (not necessarily minimal) wire forms -/

theorem shiftLeft_lor_small {t x m : Nat} (hx : x < 2 ^ m) :
    (t <<< m) ||| x = 2 ^ m * t + x := by
  rw [Nat.shiftLeft_eq, Nat.mul_comm t (2 ^ m)]
  exact (Nat.mul_add_lt_is_or hx t).symm

theorem nonMinEnc_length (n v : Nat) (h : n = 9 → False) : (nonMinEnc n v).length = n := by
  unfold nonMinEnc
  rw [if_neg (by intro hc; exact h hc)]
  exact beBytes_length n _

theorem nonMinEnc9_length (v : Nat) : (nonMinEnc 9 v).length = 9 := by
  unfold nonMinEnc
  rw [if_pos rfl]
  simp [beBytes_length]

theorem get_nonMin2 (v : Nat) (hv : v ≤ 0x3fff) (rest : List Nat)
    (_hrest : ∀ b ∈ rest, b < 256) :
    get_prefix_uvarint (nonMinEnc 2 v ++ rest) = some (some v, rest) := by
  have henc : nonMinEnc 2 v ++ rest
      = (0x8000 + v) / 2 ^ 8 % 256 :: (0x8000 + v) % 256 :: rest := by
    simp [nonMinEnc, lor_tag2 hv, beBytes]
  rcases Nat.lt_or_ge (nonMinEnc 2 v ++ rest).length MAX_LEN with hlen | hlen
  · rw [henc] at hlen ⊢
    rw [get_prefix_uvarint.eq_def,
      if_neg (by simp only [List.length_cons, MAX_LEN] at hlen ⊢; omega)]
    have htag : ¬((0x8000 + v) / 2 ^ 8 % 256 ≤ MAX_1BYTE_TAG) := by
      simp only [MAX_1BYTE_TAG, MAX_VALUE]
      omega
    have hlo : leading_ones ((0x8000 + v) / 2 ^ 8 % 256) = 1 :=
      leading_ones_eq_1 _ (by omega) (by omega) (by omega)
    simp only [htag, if_false, get_prefix_uvarint_slow, hlo]
    rw [if_neg (by simp)]
    rw [get_uint, if_pos (by simp)]
    simp only [List.take_succ_cons, List.take_zero, List.drop_succ_cons, List.drop_zero,
      fromBE, List.foldl, Option.map_some', Nat.zero_mul, Nat.zero_add]
    rw [shiftLeft_lor_small (show (0x8000 + v) % 256 < 2 ^ 8 by omega),
      show MAX_VALUE 2 = 2 ^ 14 - 1 by norm_num [MAX_VALUE],
      Nat.and_pow_two_sub_one_eq_mod]
    simp only [Option.some.injEq, Prod.mk.injEq]
    exact ⟨by omega, trivial⟩
  · rw [get_prefix_uvarint.eq_def, if_pos hlen, decode_nonMin2 v hv rest]
    simp only [Option.map_some']
    rw [List.drop_left' (nonMinEnc_length 2 v (by omega))]

theorem get_nonMin3 (v : Nat) (hv : v ≤ 0x1fffff) (rest : List Nat)
    (hrest : ∀ b ∈ rest, b < 256) :
    get_prefix_uvarint (nonMinEnc 3 v ++ rest) = some (some v, rest) := by
  have henc : nonMinEnc 3 v = beBytes 3 (0xc00000 + v) := by
    simp [nonMinEnc, lor_tag3 hv]
  have hcons : beBytes 3 (0xc00000 + v)
      = (0xc00000 + v) / 2 ^ 16 % 256 :: beBytes 2 (0xc00000 + v) := rfl
  have htag : ¬((0xc00000 + v) / 2 ^ 16 % 256 ≤ MAX_1BYTE_TAG) := by
    simp only [MAX_1BYTE_TAG, MAX_VALUE]
    omega
  have hlo : leading_ones ((0xc00000 + v) / 2 ^ 16 % 256) = 2 :=
    leading_ones_eq_2 _ (by omega) (by omega) (by omega)
  rcases Nat.lt_or_ge (nonMinEnc 3 v ++ rest).length MAX_LEN with hlen | hlen
  · rw [henc] at hlen ⊢
    rw [hcons, List.cons_append] at hlen ⊢
    rw [get_prefix_uvarint.eq_def,
      if_neg (by
        simp only [List.length_cons, List.length_append, beBytes_length, MAX_LEN] at hlen ⊢
        omega)]
    simp only [htag, if_false, get_prefix_uvarint_slow, hlo]
    rw [if_neg (by simp only [List.length_append, beBytes_length]; omega)]
    rw [get_uint, if_pos (by simp only [List.length_append, beBytes_length]; omega)]
    rw [List.take_left' (beBytes_length 2 _), List.drop_left' (beBytes_length 2 _),
      fromBE_beBytes]
    simp only [Option.map_some']
    rw [shiftLeft_lor_small (show (0xc00000 + v) % 2 ^ (8 * 2) < 2 ^ 16 by omega)]
    simp only [Option.some.injEq, Prod.mk.injEq, show (8 : Nat) * 2 = 16 from rfl,
      show MAX_VALUE 3 = 2 ^ 21 - 1 by norm_num [MAX_VALUE],
      Nat.and_pow_two_sub_one_eq_mod]
    exact ⟨by omega, trivial⟩
  · rcases rest with _ | ⟨z, rest'⟩
    · simp only [List.length_append, nonMinEnc_length 3 v (by omega), List.length_nil,
        MAX_LEN] at hlen
      omega
    · have hz : z < 256 := hrest z (List.mem_cons_self z rest')
      rw [get_prefix_uvarint.eq_def, if_pos hlen, decode_nonMin3 v hv z hz rest']
      simp only [Option.map_some']
      rw [List.drop_left' (nonMinEnc_length 3 v (by omega))]

theorem get_tag1 (v : Nat) (hv : v ≤ 0x7f) (rest : List Nat) :
    get_prefix_uvarint (v :: rest) = some (some v, rest) := by
  have htag : v ≤ MAX_1BYTE_TAG := by
    simp only [MAX_1BYTE_TAG, MAX_VALUE]
    omega
  rcases Nat.lt_or_ge (v :: rest).length MAX_LEN with hlen | hlen
  · rw [get_prefix_uvarint.eq_def, if_neg (by omega)]
    simp only [htag, if_true]
  · rw [get_prefix_uvarint.eq_def, if_pos hlen, decode_tag1 v hv rest]
    simp only [Option.map_some', List.drop_succ_cons, List.drop_zero]

theorem get_nonMin4 (v : Nat) (hv : v ≤ 0xfffffff) (rest : List Nat)
    (_hrest : ∀ b ∈ rest, b < 256) :
    get_prefix_uvarint (nonMinEnc 4 v ++ rest) = some (some v, rest) := by
  have henc : nonMinEnc 4 v = beBytes 4 (0xe0000000 + v) := by
    simp [nonMinEnc, lor_tag4 hv]
  have hcons : beBytes 4 (0xe0000000 + v)
      = (0xe0000000 + v) / 2 ^ 24 % 256 :: beBytes 3 (0xe0000000 + v) := rfl
  have htag : ¬((0xe0000000 + v) / 2 ^ 24 % 256 ≤ MAX_1BYTE_TAG) := by
    simp only [MAX_1BYTE_TAG, MAX_VALUE]
    omega
  have hlo : leading_ones ((0xe0000000 + v) / 2 ^ 24 % 256) = 3 :=
    leading_ones_eq_3 _ (by omega) (by omega) (by omega)
  rcases Nat.lt_or_ge (nonMinEnc 4 v ++ rest).length MAX_LEN with hlen | hlen
  · rw [henc] at hlen ⊢
    rw [hcons, List.cons_append] at hlen ⊢
    rw [get_prefix_uvarint.eq_def,
      if_neg (by
        simp only [List.length_cons, List.length_append, beBytes_length, MAX_LEN] at hlen ⊢
        omega)]
    simp only [htag, if_false, get_prefix_uvarint_slow, hlo]
    rw [if_neg (by simp only [List.length_append, beBytes_length]; omega)]
    rw [get_uint, if_pos (by simp only [List.length_append, beBytes_length]; omega)]
    rw [List.take_left' (beBytes_length 3 _), List.drop_left' (beBytes_length 3 _),
      fromBE_beBytes]
    simp only [Option.map_some']
    rw [shiftLeft_lor_small (show (0xe0000000 + v) % 2 ^ (8 * 3) < 2 ^ 24 by omega)]
    simp only [Option.some.injEq, Prod.mk.injEq, show (8 : Nat) * 3 = 24 from rfl,
      show MAX_VALUE 4 = 2 ^ 28 - 1 by norm_num [MAX_VALUE],
      Nat.and_pow_two_sub_one_eq_mod]
    exact ⟨by omega, trivial⟩
  · rw [get_prefix_uvarint.eq_def, if_pos hlen, decode_nonMin4 v hv rest]
    simp only [Option.map_some']
    rw [List.drop_left' (nonMinEnc_length 4 v (by omega))]

theorem get_nonMin5 (v : Nat) (hv : v ≤ 0x7ffffffff) (rest : List Nat)
    (hrest : ∀ b ∈ rest, b < 256) :
    get_prefix_uvarint (nonMinEnc 5 v ++ rest) = some (some v, rest) := by
  have henc : nonMinEnc 5 v = beBytes 5 (0xf000000000 + v) := by
    simp [nonMinEnc, lor_tag5 hv]
  have hcons : beBytes 5 (0xf000000000 + v)
      = (0xf000000000 + v) / 2 ^ 32 % 256 :: beBytes 4 (0xf000000000 + v) := rfl
  have htag : ¬((0xf000000000 + v) / 2 ^ 32 % 256 ≤ MAX_1BYTE_TAG) := by
    simp only [MAX_1BYTE_TAG, MAX_VALUE]
    omega
  have hlo : leading_ones ((0xf000000000 + v) / 2 ^ 32 % 256) = 4 :=
    leading_ones_eq_4 _ (by omega) (by omega) (by omega)
  rcases Nat.lt_or_ge (nonMinEnc 5 v ++ rest).length MAX_LEN with hlen | hlen
  · rw [henc] at hlen ⊢
    rw [hcons, List.cons_append] at hlen ⊢
    rw [get_prefix_uvarint.eq_def,
      if_neg (by
        simp only [List.length_cons, List.length_append, beBytes_length, MAX_LEN] at hlen ⊢
        omega)]
    simp only [htag, if_false, get_prefix_uvarint_slow, hlo]
    rw [if_neg (by simp only [List.length_append, beBytes_length]; omega)]
    rw [get_uint, if_pos (by simp only [List.length_append, beBytes_length]; omega)]
    rw [List.take_left' (beBytes_length 4 _), List.drop_left' (beBytes_length 4 _),
      fromBE_beBytes]
    simp only [Option.map_some']
    rw [shiftLeft_lor_small (show (0xf000000000 + v) % 2 ^ (8 * 4) < 2 ^ 32 by omega)]
    simp only [Option.some.injEq, Prod.mk.injEq, show (8 : Nat) * 4 = 32 from rfl,
      show MAX_VALUE 5 = 2 ^ 35 - 1 by norm_num [MAX_VALUE],
      Nat.and_pow_two_sub_one_eq_mod]
    exact ⟨by omega, trivial⟩
  · rcases rest with _ | ⟨z1, _ | ⟨z2, _ | ⟨z3, rest'⟩⟩⟩
    · have hL : (nonMinEnc 5 v ++ ([] : List Nat)).length = 5 := by
        simp [nonMinEnc_length 5 v (by omega)]
      have hM : MAX_LEN = 9 := rfl
      omega
    · have hL : (nonMinEnc 5 v ++ [z1]).length = 6 := by
        simp [nonMinEnc_length 5 v (by omega)]
      have hM : MAX_LEN = 9 := rfl
      omega
    · have hL : (nonMinEnc 5 v ++ [z1, z2]).length = 7 := by
        simp [nonMinEnc_length 5 v (by omega)]
      have hM : MAX_LEN = 9 := rfl
      omega
    · have hz1 : z1 < 256 := hrest z1 (by simp)
      have hz2 : z2 < 256 := hrest z2 (by simp)
      have hz3 : z3 < 256 := hrest z3 (by simp)
      rw [get_prefix_uvarint.eq_def, if_pos hlen, decode_nonMin5 v hv z1 z2 z3 hz1 hz2 hz3 rest']
      simp only [Option.map_some']
      rw [List.drop_left' (nonMinEnc_length 5 v (by omega))]

theorem get_nonMin6 (v : Nat) (hv : v ≤ 0x3ffffffffff) (rest : List Nat)
    (hrest : ∀ b ∈ rest, b < 256) :
    get_prefix_uvarint (nonMinEnc 6 v ++ rest) = some (some v, rest) := by
  have henc : nonMinEnc 6 v = beBytes 6 (0xf80000000000 + v) := by
    simp [nonMinEnc, lor_tag6 hv]
  have hcons : beBytes 6 (0xf80000000000 + v)
      = (0xf80000000000 + v) / 2 ^ 40 % 256 :: beBytes 5 (0xf80000000000 + v) := rfl
  have htag : ¬((0xf80000000000 + v) / 2 ^ 40 % 256 ≤ MAX_1BYTE_TAG) := by
    simp only [MAX_1BYTE_TAG, MAX_VALUE]
    omega
  have hlo : leading_ones ((0xf80000000000 + v) / 2 ^ 40 % 256) = 5 :=
    leading_ones_eq_5 _ (by omega) (by omega) (by omega)
  rcases Nat.lt_or_ge (nonMinEnc 6 v ++ rest).length MAX_LEN with hlen | hlen
  · rw [henc] at hlen ⊢
    rw [hcons, List.cons_append] at hlen ⊢
    rw [get_prefix_uvarint.eq_def,
      if_neg (by
        simp only [List.length_cons, List.length_append, beBytes_length, MAX_LEN] at hlen ⊢
        omega)]
    simp only [htag, if_false, get_prefix_uvarint_slow, hlo]
    rw [if_neg (by simp only [List.length_append, beBytes_length]; omega)]
    rw [get_uint, if_pos (by simp only [List.length_append, beBytes_length]; omega)]
    rw [List.take_left' (beBytes_length 5 _), List.drop_left' (beBytes_length 5 _),
      fromBE_beBytes]
    simp only [Option.map_some']
    rw [shiftLeft_lor_small (show (0xf80000000000 + v) % 2 ^ (8 * 5) < 2 ^ 40 by omega)]
    simp only [Option.some.injEq, Prod.mk.injEq, show (8 : Nat) * 5 = 40 from rfl,
      show MAX_VALUE 6 = 2 ^ 42 - 1 by norm_num [MAX_VALUE],
      Nat.and_pow_two_sub_one_eq_mod]
    exact ⟨by omega, trivial⟩
  · rcases rest with _ | ⟨z1, _ | ⟨z2, rest'⟩⟩
    · have hL : (nonMinEnc 6 v ++ ([] : List Nat)).length = 6 := by
        simp [nonMinEnc_length 6 v (by omega)]
      have hM : MAX_LEN = 9 := rfl
      omega
    · have hL : (nonMinEnc 6 v ++ [z1]).length = 7 := by
        simp [nonMinEnc_length 6 v (by omega)]
      have hM : MAX_LEN = 9 := rfl
      omega
    · have hz1 : z1 < 256 := hrest z1 (by simp)
      have hz2 : z2 < 256 := hrest z2 (by simp)
      rw [get_prefix_uvarint.eq_def, if_pos hlen, decode_nonMin6 v hv z1 z2 hz1 hz2 rest']
      simp only [Option.map_some']
      rw [List.drop_left' (nonMinEnc_length 6 v (by omega))]

theorem get_nonMin7 (v : Nat) (hv : v ≤ 0x1ffffffffffff) (rest : List Nat)
    (hrest : ∀ b ∈ rest, b < 256) :
    get_prefix_uvarint (nonMinEnc 7 v ++ rest) = some (some v, rest) := by
  have henc : nonMinEnc 7 v = beBytes 7 (0xfc000000000000 + v) := by
    simp [nonMinEnc, lor_tag7 hv]
  have hcons : beBytes 7 (0xfc000000000000 + v)
      = (0xfc000000000000 + v) / 2 ^ 48 % 256 :: beBytes 6 (0xfc000000000000 + v) := rfl
  have htag : ¬((0xfc000000000000 + v) / 2 ^ 48 % 256 ≤ MAX_1BYTE_TAG) := by
    simp only [MAX_1BYTE_TAG, MAX_VALUE]
    omega
  have hlo : leading_ones ((0xfc000000000000 + v) / 2 ^ 48 % 256) = 6 :=
    leading_ones_eq_6 _ (by omega) (by omega) (by omega)
  rcases Nat.lt_or_ge (nonMinEnc 7 v ++ rest).length MAX_LEN with hlen | hlen
  · rw [henc] at hlen ⊢
    rw [hcons, List.cons_append] at hlen ⊢
    rw [get_prefix_uvarint.eq_def,
      if_neg (by
        simp only [List.length_cons, List.length_append, beBytes_length, MAX_LEN] at hlen ⊢
        omega)]
    simp only [htag, if_false, get_prefix_uvarint_slow, hlo]
    rw [if_neg (by simp only [List.length_append, beBytes_length]; omega)]
    rw [get_uint, if_pos (by simp only [List.length_append, beBytes_length]; omega)]
    rw [List.take_left' (beBytes_length 6 _), List.drop_left' (beBytes_length 6 _),
      fromBE_beBytes]
    simp only [Option.map_some']
    rw [shiftLeft_lor_small (show (0xfc000000000000 + v) % 2 ^ (8 * 6) < 2 ^ 48 by omega)]
    simp only [Option.some.injEq, Prod.mk.injEq, show (8 : Nat) * 6 = 48 from rfl,
      show MAX_VALUE 7 = 2 ^ 49 - 1 by norm_num [MAX_VALUE],
      Nat.and_pow_two_sub_one_eq_mod]
    exact ⟨by omega, trivial⟩
  · rcases rest with _ | ⟨z, rest'⟩
    · have hL : (nonMinEnc 7 v ++ ([] : List Nat)).length = 7 := by
        simp [nonMinEnc_length 7 v (by omega)]
      have hM : MAX_LEN = 9 := rfl
      omega
    · have hz : z < 256 := hrest z (by simp)
      rw [get_prefix_uvarint.eq_def, if_pos hlen, decode_nonMin7 v hv z hz rest']
      simp only [Option.map_some']
      rw [List.drop_left' (nonMinEnc_length 7 v (by omega))]

theorem get_nonMin8 (v : Nat) (hv : v ≤ 0xffffffffffffff) (rest : List Nat)
    (_hrest : ∀ b ∈ rest, b < 256) :
    get_prefix_uvarint (nonMinEnc 8 v ++ rest) = some (some v, rest) := by
  have henc : nonMinEnc 8 v = beBytes 8 (0xfe00000000000000 + v) := by
    simp [nonMinEnc, lor_tag8 hv]
  have hcons : beBytes 8 (0xfe00000000000000 + v)
      = (0xfe00000000000000 + v) / 2 ^ 56 % 256 :: beBytes 7 (0xfe00000000000000 + v) := rfl
  have htag : ¬((0xfe00000000000000 + v) / 2 ^ 56 % 256 ≤ MAX_1BYTE_TAG) := by
    simp only [MAX_1BYTE_TAG, MAX_VALUE]
    omega
  have harg : (0xfe00000000000000 + v) / 2 ^ 56 % 256 = 0xfe := by omega
  have hlo : leading_ones ((0xfe00000000000000 + v) / 2 ^ 56 % 256) = 7 := by
    rw [harg]
    exact leading_ones_eq_7
  rcases Nat.lt_or_ge (nonMinEnc 8 v ++ rest).length MAX_LEN with hlen | hlen
  · rw [henc] at hlen ⊢
    rw [hcons, List.cons_append] at hlen ⊢
    rw [get_prefix_uvarint.eq_def,
      if_neg (by
        simp only [List.length_cons, List.length_append, beBytes_length, MAX_LEN] at hlen ⊢
        omega)]
    simp only [htag, if_false, get_prefix_uvarint_slow, hlo]
    rw [if_neg (by simp only [List.length_append, beBytes_length]; omega)]
    rw [get_uint, if_pos (by simp only [List.length_append, beBytes_length]; omega)]
    rw [List.take_left' (beBytes_length 7 _), List.drop_left' (beBytes_length 7 _),
      fromBE_beBytes]
    simp only [Option.map_some']
    rw [shiftLeft_lor_small (show (0xfe00000000000000 + v) % 2 ^ (8 * 7) < 2 ^ 56 by omega)]
    simp only [Option.some.injEq, Prod.mk.injEq, show (8 : Nat) * 7 = 56 from rfl,
      show MAX_VALUE 8 = 2 ^ 56 - 1 by norm_num [MAX_VALUE],
      Nat.and_pow_two_sub_one_eq_mod]
    exact ⟨by omega, trivial⟩
  · rw [get_prefix_uvarint.eq_def, if_pos hlen, decode_nonMin8 v hv rest]
    simp only [Option.map_some']
    rw [List.drop_left' (nonMinEnc_length 8 v (by omega))]

theorem get_nonMin9 (v : Nat) (hv : v < 2 ^ 64) (rest : List Nat)
    (_hrest : ∀ b ∈ rest, b < 256) :
    get_prefix_uvarint (nonMinEnc 9 v ++ rest) = some (some v, rest) := by
  have henc : nonMinEnc 9 v = 0xff :: beBytes 8 v := by
    simp [nonMinEnc]
  have htag : ¬((0xff : Nat) ≤ MAX_1BYTE_TAG) := by
    simp only [MAX_1BYTE_TAG, MAX_VALUE]
    omega
  rcases Nat.lt_or_ge (nonMinEnc 9 v ++ rest).length MAX_LEN with hlen | hlen
  · rw [henc] at hlen
    simp only [List.cons_append, List.length_cons, List.length_append, beBytes_length,
      MAX_LEN] at hlen
    omega
  · rw [get_prefix_uvarint.eq_def, if_pos hlen, decode_nonMin9 v hv rest]
    simp only [Option.map_some']
    rw [List.drop_left' (nonMinEnc9_length v)]

/-! ### The committed encoding is the wire form of the selected length -/

theorem encoded_eq1 (v : Nat) (hv : v ≤ MAX_VALUE 1) : encoded v = [v] := by
  unfold encoded encode_prefix_uvarint
  rw [if_pos hv]
  simp only [List.take_succ_cons, List.take_zero]
  rw [Nat.mod_eq_of_lt (by simp only [MAX_VALUE] at hv; omega)]

theorem encoded_eq2 (v : Nat) (h1 : MAX_VALUE 1 < v) (h2 : v ≤ MAX_VALUE 2) :
    encoded v = nonMinEnc 2 v := by
  unfold encoded encode_prefix_uvarint encode_prefix_uvarint_slow
  rw [if_neg (by omega), if_pos h2]
  simp only [List.take_of_length_le (le_of_eq (beBytes_length 2 _)), nonMinEnc,
    if_neg (by norm_num : ¬(2 = 9))]

theorem encoded_eq3 (v : Nat) (h1 : MAX_VALUE 2 < v) (h2 : v ≤ MAX_VALUE 3) :
    encoded v = nonMinEnc 3 v := by
  unfold encoded encode_prefix_uvarint encode_prefix_uvarint_slow
  rw [if_neg (by simp only [MAX_VALUE] at h1 ⊢; omega), if_neg (by omega), if_pos h2]
  simp only []
  have hsplit : (beBytes 4 ((v ||| TAG_PREFIX 3) <<< 8)).take 3
      = beBytes 3 ((v ||| TAG_PREFIX 3) <<< 8 / 2 ^ 8) := beBytes_take 3 4 _ (by omega)
  rw [hsplit, Nat.shiftLeft_eq, Nat.mul_div_cancel _ (by norm_num : (0:Nat) < 2 ^ 8)]
  simp [nonMinEnc]

theorem encoded_eq4 (v : Nat) (h1 : MAX_VALUE 3 < v) (h2 : v ≤ MAX_VALUE 4) :
    encoded v = nonMinEnc 4 v := by
  unfold encoded encode_prefix_uvarint encode_prefix_uvarint_slow
  rw [if_neg (by simp only [MAX_VALUE] at h1 ⊢; omega),
    if_neg (by simp only [MAX_VALUE] at h1 ⊢; omega), if_neg (by omega), if_pos h2]
  simp only [List.take_of_length_le (le_of_eq (beBytes_length 4 _)), nonMinEnc,
    if_neg (by norm_num : ¬(4 = 9))]

theorem encoded_eq5 (v : Nat) (h1 : MAX_VALUE 4 < v) (h2 : v ≤ MAX_VALUE 5) :
    encoded v = nonMinEnc 5 v := by
  unfold encoded encode_prefix_uvarint encode_prefix_uvarint_slow
  rw [if_neg (by simp only [MAX_VALUE] at h1 ⊢; omega),
    if_neg (by simp only [MAX_VALUE] at h1 ⊢; omega),
    if_neg (by simp only [MAX_VALUE] at h1 ⊢; omega), if_neg (by omega), if_pos h2]
  simp only []
  have hsplit : (beBytes 8 ((v ||| TAG_PREFIX 5) <<< 24)).take 5
      = beBytes 5 ((v ||| TAG_PREFIX 5) <<< 24 / 2 ^ 24) := beBytes_take 5 8 _ (by omega)
  rw [hsplit, Nat.shiftLeft_eq, Nat.mul_div_cancel _ (by norm_num : (0:Nat) < 2 ^ 24)]
  simp [nonMinEnc]

theorem encoded_eq6 (v : Nat) (h1 : MAX_VALUE 5 < v) (h2 : v ≤ MAX_VALUE 6) :
    encoded v = nonMinEnc 6 v := by
  unfold encoded encode_prefix_uvarint encode_prefix_uvarint_slow
  rw [if_neg (by simp only [MAX_VALUE] at h1 ⊢; omega),
    if_neg (by simp only [MAX_VALUE] at h1 ⊢; omega),
    if_neg (by simp only [MAX_VALUE] at h1 ⊢; omega),
    if_neg (by simp only [MAX_VALUE] at h1 ⊢; omega), if_neg (by omega), if_pos h2]
  simp only []
  have hsplit : (beBytes 8 ((v ||| TAG_PREFIX 6) <<< 16)).take 6
      = beBytes 6 ((v ||| TAG_PREFIX 6) <<< 16 / 2 ^ 16) := beBytes_take 6 8 _ (by omega)
  rw [hsplit, Nat.shiftLeft_eq, Nat.mul_div_cancel _ (by norm_num : (0:Nat) < 2 ^ 16)]
  simp [nonMinEnc]

theorem encoded_eq7 (v : Nat) (h1 : MAX_VALUE 6 < v) (h2 : v ≤ MAX_VALUE 7) :
    encoded v = nonMinEnc 7 v := by
  unfold encoded encode_prefix_uvarint encode_prefix_uvarint_slow
  rw [if_neg (by simp only [MAX_VALUE] at h1 ⊢; omega),
    if_neg (by simp only [MAX_VALUE] at h1 ⊢; omega),
    if_neg (by simp only [MAX_VALUE] at h1 ⊢; omega),
    if_neg (by simp only [MAX_VALUE] at h1 ⊢; omega),
    if_neg (by simp only [MAX_VALUE] at h1 ⊢; omega), if_neg (by omega), if_pos h2]
  simp only []
  have hsplit : (beBytes 8 ((v ||| TAG_PREFIX 7) <<< 8)).take 7
      = beBytes 7 ((v ||| TAG_PREFIX 7) <<< 8 / 2 ^ 8) := beBytes_take 7 8 _ (by omega)
  rw [hsplit, Nat.shiftLeft_eq, Nat.mul_div_cancel _ (by norm_num : (0:Nat) < 2 ^ 8)]
  simp [nonMinEnc]

theorem encoded_eq8 (v : Nat) (h1 : MAX_VALUE 7 < v) (h2 : v ≤ MAX_VALUE 8) :
    encoded v = nonMinEnc 8 v := by
  unfold encoded encode_prefix_uvarint encode_prefix_uvarint_slow
  rw [if_neg (by simp only [MAX_VALUE] at h1 ⊢; omega),
    if_neg (by simp only [MAX_VALUE] at h1 ⊢; omega),
    if_neg (by simp only [MAX_VALUE] at h1 ⊢; omega),
    if_neg (by simp only [MAX_VALUE] at h1 ⊢; omega),
    if_neg (by simp only [MAX_VALUE] at h1 ⊢; omega),
    if_neg (by simp only [MAX_VALUE] at h1 ⊢; omega), if_neg (by omega), if_pos h2]
  simp only [List.take_of_length_le (le_of_eq (beBytes_length 8 _)), nonMinEnc,
    if_neg (by norm_num : ¬(8 = 9))]

theorem encoded_eq9 (v : Nat) (h1 : MAX_VALUE 8 < v) : encoded v = nonMinEnc 9 v := by
  unfold encoded encode_prefix_uvarint encode_prefix_uvarint_slow
  rw [if_neg (by simp only [MAX_VALUE] at h1 ⊢; omega),
    if_neg (by simp only [MAX_VALUE] at h1 ⊢; omega),
    if_neg (by simp only [MAX_VALUE] at h1 ⊢; omega),
    if_neg (by simp only [MAX_VALUE] at h1 ⊢; omega),
    if_neg (by simp only [MAX_VALUE] at h1 ⊢; omega),
    if_neg (by simp only [MAX_VALUE] at h1 ⊢; omega),
    if_neg (by simp only [MAX_VALUE] at h1 ⊢; omega), if_neg (by omega)]
  rw [show nonMinEnc 9 v = 0xff :: beBytes 8 v from by simp [nonMinEnc]]
  simp only [List.take_succ_cons]
  rw [List.take_of_length_le (le_of_eq (beBytes_length 8 v))]

theorem nonMinEnc_lt (n v : Nat) : ∀ b ∈ nonMinEnc n v, b < 256 := by
  intro b hb
  unfold nonMinEnc at hb
  split at hb
  · rcases List.mem_cons.mp hb with rfl | hb
    · norm_num
    · exact beBytes_lt _ _ b hb
  · exact beBytes_lt _ _ b hb

theorem encoded_lt (v : Nat) (hv : v < 2 ^ 64) : ∀ b ∈ encoded v, b < 256 := by
  rcases le_or_lt v (MAX_VALUE 1) with h1 | h1
  · rw [encoded_eq1 v h1]
    intro b hb
    rcases List.mem_singleton.mp hb with rfl
    simp only [MAX_VALUE] at h1
    omega
  rcases le_or_lt v (MAX_VALUE 2) with h2 | h2
  · rw [encoded_eq2 v h1 h2]; exact nonMinEnc_lt 2 v
  rcases le_or_lt v (MAX_VALUE 3) with h3 | h3
  · rw [encoded_eq3 v h2 h3]; exact nonMinEnc_lt 3 v
  rcases le_or_lt v (MAX_VALUE 4) with h4 | h4
  · rw [encoded_eq4 v h3 h4]; exact nonMinEnc_lt 4 v
  rcases le_or_lt v (MAX_VALUE 5) with h5 | h5
  · rw [encoded_eq5 v h4 h5]; exact nonMinEnc_lt 5 v
  rcases le_or_lt v (MAX_VALUE 6) with h6 | h6
  · rw [encoded_eq6 v h5 h6]; exact nonMinEnc_lt 6 v
  rcases le_or_lt v (MAX_VALUE 7) with h7 | h7
  · rw [encoded_eq7 v h6 h7]; exact nonMinEnc_lt 7 v
  rcases le_or_lt v (MAX_VALUE 8) with h8 | h8
  · rw [encoded_eq8 v h7 h8]; exact nonMinEnc_lt 8 v
  · rw [encoded_eq9 v h8]; exact nonMinEnc_lt 9 v

/-! ### Round trips through the raw codec and the buffer layer -/

theorem decode_encode_raw (v : Nat) (hv : v < 2 ^ 64) (rest : List Nat) :
    decode_prefix_uvarint ((encode_prefix_uvarint v).1 ++ rest)
      = some (v, (encode_prefix_uvarint v).2) := by
  rcases le_or_lt v (MAX_VALUE 1) with h1 | h1
  · rw [show encode_prefix_uvarint v = ([v % 256], 1) from by
      unfold encode_prefix_uvarint; rw [if_pos h1]]
    simp only [List.singleton_append]
    rw [Nat.mod_eq_of_lt (by simp only [MAX_VALUE] at h1; omega)]
    exact decode_tag1 v (by simpa [MAX_VALUE] using h1) rest
  rcases le_or_lt v (MAX_VALUE 2) with h2 | h2
  · rw [show encode_prefix_uvarint v = (beBytes 2 (v ||| TAG_PREFIX 2), 2) from by
      unfold encode_prefix_uvarint encode_prefix_uvarint_slow
      rw [if_neg (by omega), if_pos h2]]
    simp only []
    rw [show beBytes 2 (v ||| TAG_PREFIX 2) = nonMinEnc 2 v from by simp [nonMinEnc]]
    exact decode_nonMin2 v (by simpa [MAX_VALUE] using h2) rest
  rcases le_or_lt v (MAX_VALUE 3) with h3 | h3
  · rw [show encode_prefix_uvarint v = (beBytes 4 ((v ||| TAG_PREFIX 3) <<< 8), 3) from by
      unfold encode_prefix_uvarint encode_prefix_uvarint_slow
      rw [if_neg (by simp only [MAX_VALUE] at h2 ⊢; omega), if_neg (by omega), if_pos h3]]
    simp only []
    have hsplit : beBytes 4 ((v ||| TAG_PREFIX 3) <<< 8)
        = beBytes 3 ((v ||| TAG_PREFIX 3) <<< 8 / 2 ^ 8)
          ++ beBytes 1 ((v ||| TAG_PREFIX 3) <<< 8) := beBytes_add 3 1 _
    rw [hsplit, Nat.shiftLeft_eq, Nat.mul_div_cancel _ (by norm_num : (0:Nat) < 2 ^ 8),
      List.append_assoc,
      show beBytes 3 (v ||| TAG_PREFIX 3) = nonMinEnc 3 v from by simp [nonMinEnc],
      show beBytes 1 ((v ||| TAG_PREFIX 3) * 2 ^ 8) ++ rest
          = (v ||| TAG_PREFIX 3) * 2 ^ 8 / 2 ^ (8 * 0) % 256 :: rest from rfl]
    exact decode_nonMin3 v (by simpa [MAX_VALUE] using h3) _
      (Nat.mod_lt _ (by norm_num)) rest
  rcases le_or_lt v (MAX_VALUE 4) with h4 | h4
  · rw [show encode_prefix_uvarint v = (beBytes 4 (v ||| TAG_PREFIX 4), 4) from by
      unfold encode_prefix_uvarint encode_prefix_uvarint_slow
      rw [if_neg (by simp only [MAX_VALUE] at h3 ⊢; omega),
        if_neg (by simp only [MAX_VALUE] at h3 ⊢; omega), if_neg (by omega), if_pos h4]]
    simp only []
    rw [show beBytes 4 (v ||| TAG_PREFIX 4) = nonMinEnc 4 v from by simp [nonMinEnc]]
    exact decode_nonMin4 v (by simpa [MAX_VALUE] using h4) rest
  rcases le_or_lt v (MAX_VALUE 5) with h5 | h5
  · rw [show encode_prefix_uvarint v = (beBytes 8 ((v ||| TAG_PREFIX 5) <<< 24), 5) from by
      unfold encode_prefix_uvarint encode_prefix_uvarint_slow
      rw [if_neg (by simp only [MAX_VALUE] at h4 ⊢; omega),
        if_neg (by simp only [MAX_VALUE] at h4 ⊢; omega),
        if_neg (by simp only [MAX_VALUE] at h4 ⊢; omega), if_neg (by omega), if_pos h5]]
    simp only []
    have hsplit : beBytes 8 ((v ||| TAG_PREFIX 5) <<< 24)
        = beBytes 5 ((v ||| TAG_PREFIX 5) <<< 24 / 2 ^ 24)
          ++ beBytes 3 ((v ||| TAG_PREFIX 5) <<< 24) := beBytes_add 5 3 _
    rw [hsplit, Nat.shiftLeft_eq, Nat.mul_div_cancel _ (by norm_num : (0:Nat) < 2 ^ 24),
      List.append_assoc,
      show beBytes 5 (v ||| TAG_PREFIX 5) = nonMinEnc 5 v from by simp [nonMinEnc],
      show beBytes 3 ((v ||| TAG_PREFIX 5) * 2 ^ 24) ++ rest
          = (v ||| TAG_PREFIX 5) * 2 ^ 24 / 2 ^ (8 * 2) % 256
            :: (v ||| TAG_PREFIX 5) * 2 ^ 24 / 2 ^ (8 * 1) % 256
            :: (v ||| TAG_PREFIX 5) * 2 ^ 24 / 2 ^ (8 * 0) % 256 :: rest from rfl]
    exact decode_nonMin5 v (by simpa [MAX_VALUE] using h5) _ _ _
      (Nat.mod_lt _ (by norm_num)) (Nat.mod_lt _ (by norm_num))
      (Nat.mod_lt _ (by norm_num)) rest
  rcases le_or_lt v (MAX_VALUE 6) with h6 | h6
  · rw [show encode_prefix_uvarint v = (beBytes 8 ((v ||| TAG_PREFIX 6) <<< 16), 6) from by
      unfold encode_prefix_uvarint encode_prefix_uvarint_slow
      rw [if_neg (by simp only [MAX_VALUE] at h5 ⊢; omega),
        if_neg (by simp only [MAX_VALUE] at h5 ⊢; omega),
        if_neg (by simp only [MAX_VALUE] at h5 ⊢; omega),
        if_neg (by simp only [MAX_VALUE] at h5 ⊢; omega), if_neg (by omega), if_pos h6]]
    simp only []
    have hsplit : beBytes 8 ((v ||| TAG_PREFIX 6) <<< 16)
        = beBytes 6 ((v ||| TAG_PREFIX 6) <<< 16 / 2 ^ 16)
          ++ beBytes 2 ((v ||| TAG_PREFIX 6) <<< 16) := beBytes_add 6 2 _
    rw [hsplit, Nat.shiftLeft_eq, Nat.mul_div_cancel _ (by norm_num : (0:Nat) < 2 ^ 16),
      List.append_assoc,
      show beBytes 6 (v ||| TAG_PREFIX 6) = nonMinEnc 6 v from by simp [nonMinEnc],
      show beBytes 2 ((v ||| TAG_PREFIX 6) * 2 ^ 16) ++ rest
          = (v ||| TAG_PREFIX 6) * 2 ^ 16 / 2 ^ (8 * 1) % 256
            :: (v ||| TAG_PREFIX 6) * 2 ^ 16 / 2 ^ (8 * 0) % 256 :: rest from rfl]
    exact decode_nonMin6 v (by simpa [MAX_VALUE] using h6) _ _
      (Nat.mod_lt _ (by norm_num)) (Nat.mod_lt _ (by norm_num)) rest
  rcases le_or_lt v (MAX_VALUE 7) with h7 | h7
  · rw [show encode_prefix_uvarint v = (beBytes 8 ((v ||| TAG_PREFIX 7) <<< 8), 7) from by
      unfold encode_prefix_uvarint encode_prefix_uvarint_slow
      rw [if_neg (by simp only [MAX_VALUE] at h6 ⊢; omega),
        if_neg (by simp only [MAX_VALUE] at h6 ⊢; omega),
        if_neg (by simp only [MAX_VALUE] at h6 ⊢; omega),
        if_neg (by simp only [MAX_VALUE] at h6 ⊢; omega),
        if_neg (by simp only [MAX_VALUE] at h6 ⊢; omega), if_neg (by omega), if_pos h7]]
    simp only []
    have hsplit : beBytes 8 ((v ||| TAG_PREFIX 7) <<< 8)
        = beBytes 7 ((v ||| TAG_PREFIX 7) <<< 8 / 2 ^ 8)
          ++ beBytes 1 ((v ||| TAG_PREFIX 7) <<< 8) := beBytes_add 7 1 _
    rw [hsplit, Nat.shiftLeft_eq, Nat.mul_div_cancel _ (by norm_num : (0:Nat) < 2 ^ 8),
      List.append_assoc,
      show beBytes 7 (v ||| TAG_PREFIX 7) = nonMinEnc 7 v from by simp [nonMinEnc],
      show beBytes 1 ((v ||| TAG_PREFIX 7) * 2 ^ 8) ++ rest
          = (v ||| TAG_PREFIX 7) * 2 ^ 8 / 2 ^ (8 * 0) % 256 :: rest from rfl]
    exact decode_nonMin7 v (by simpa [MAX_VALUE] using h7) _
      (Nat.mod_lt _ (by norm_num)) rest
  rcases le_or_lt v (MAX_VALUE 8) with h8 | h8
  · rw [show encode_prefix_uvarint v = (beBytes 8 (v ||| TAG_PREFIX 8), 8) from by
      unfold encode_prefix_uvarint encode_prefix_uvarint_slow
      rw [if_neg (by simp only [MAX_VALUE] at h7 ⊢; omega),
        if_neg (by simp only [MAX_VALUE] at h7 ⊢; omega),
        if_neg (by simp only [MAX_VALUE] at h7 ⊢; omega),
        if_neg (by simp only [MAX_VALUE] at h7 ⊢; omega),
        if_neg (by simp only [MAX_VALUE] at h7 ⊢; omega),
        if_neg (by simp only [MAX_VALUE] at h7 ⊢; omega), if_neg (by omega), if_pos h8]]
    simp only []
    rw [show beBytes 8 (v ||| TAG_PREFIX 8) = nonMinEnc 8 v from by simp [nonMinEnc]]
    exact decode_nonMin8 v (by simpa [MAX_VALUE] using h8) rest
  · rw [show encode_prefix_uvarint v = (0xff :: beBytes 8 v, 9) from by
      unfold encode_prefix_uvarint encode_prefix_uvarint_slow
      rw [if_neg (by simp only [MAX_VALUE] at h8 ⊢; omega),
        if_neg (by simp only [MAX_VALUE] at h8 ⊢; omega),
        if_neg (by simp only [MAX_VALUE] at h8 ⊢; omega),
        if_neg (by simp only [MAX_VALUE] at h8 ⊢; omega),
        if_neg (by simp only [MAX_VALUE] at h8 ⊢; omega),
        if_neg (by simp only [MAX_VALUE] at h8 ⊢; omega),
        if_neg (by simp only [MAX_VALUE] at h8 ⊢; omega), if_neg (by omega)]]
    simp only []
    rw [show (0xff :: beBytes 8 v : List Nat) = nonMinEnc 9 v from by simp [nonMinEnc]]
    exact decode_nonMin9 v hv rest

theorem get_encoded (v : Nat) (hv : v < 2 ^ 64) (rest : List Nat)
    (hrest : ∀ b ∈ rest, b < 256) :
    get_prefix_uvarint (encoded v ++ rest) = some (some v, rest) := by
  rcases le_or_lt v (MAX_VALUE 1) with h1 | h1
  · rw [encoded_eq1 v h1, List.singleton_append]
    exact get_tag1 v (by simpa [MAX_VALUE] using h1) rest
  rcases le_or_lt v (MAX_VALUE 2) with h2 | h2
  · rw [encoded_eq2 v h1 h2]
    exact get_nonMin2 v (by simpa [MAX_VALUE] using h2) rest hrest
  rcases le_or_lt v (MAX_VALUE 3) with h3 | h3
  · rw [encoded_eq3 v h2 h3]
    exact get_nonMin3 v (by simpa [MAX_VALUE] using h3) rest hrest
  rcases le_or_lt v (MAX_VALUE 4) with h4 | h4
  · rw [encoded_eq4 v h3 h4]
    exact get_nonMin4 v (by simpa [MAX_VALUE] using h4) rest hrest
  rcases le_or_lt v (MAX_VALUE 5) with h5 | h5
  · rw [encoded_eq5 v h4 h5]
    exact get_nonMin5 v (by simpa [MAX_VALUE] using h5) rest hrest
  rcases le_or_lt v (MAX_VALUE 6) with h6 | h6
  · rw [encoded_eq6 v h5 h6]
    exact get_nonMin6 v (by simpa [MAX_VALUE] using h6) rest hrest
  rcases le_or_lt v (MAX_VALUE 7) with h7 | h7
  · rw [encoded_eq7 v h6 h7]
    exact get_nonMin7 v (by simpa [MAX_VALUE] using h7) rest hrest
  rcases le_or_lt v (MAX_VALUE 8) with h8 | h8
  · rw [encoded_eq8 v h7 h8]
    exact get_nonMin8 v (by simpa [MAX_VALUE] using h8) rest hrest
  · rw [encoded_eq9 v h8]
    exact get_nonMin9 v hv rest hrest

theorem get_put (c v : Nat) (hv : v < 2 ^ 64) (rest : List Nat)
    (hrest : ∀ b ∈ rest, b < 256) :
    get_prefix_uvarint (put_prefix_uvarint c v ++ rest) = some (some v, rest) := by
  unfold put_prefix_uvarint
  rcases Nat.lt_or_ge c MAX_LEN with hc | hc
  · rw [if_neg (by omega)]
    rcases le_or_lt v (MAX_VALUE 1) with h1 | h1
    · rw [if_pos h1, List.singleton_append,
        Nat.mod_eq_of_lt (by simp only [MAX_VALUE] at h1; omega)]
      exact get_tag1 v (by simpa [MAX_VALUE] using h1) rest
    rw [if_neg (by omega)]
    unfold put_prefix_uvarint_slow
    rcases Nat.lt_or_ge v (MAX_VALUE 2) with h2 | h2
    · rw [if_pos h2,
        show beBytes 2 (v ||| TAG_PREFIX 2) = nonMinEnc 2 v from by simp [nonMinEnc]]
      exact get_nonMin2 v (by simp only [MAX_VALUE] at h2 ⊢; omega) rest hrest
    rw [if_neg (by omega)]
    rcases Nat.lt_or_ge v (MAX_VALUE 3) with h3 | h3
    · rw [if_pos h3,
        show beBytes 3 (v ||| TAG_PREFIX 3) = nonMinEnc 3 v from by simp [nonMinEnc]]
      exact get_nonMin3 v (by simp only [MAX_VALUE] at h3 ⊢; omega) rest hrest
    rw [if_neg (by omega)]
    rcases Nat.lt_or_ge v (MAX_VALUE 4) with h4 | h4
    · rw [if_pos h4,
        show beBytes 4 (v ||| TAG_PREFIX 4) = nonMinEnc 4 v from by simp [nonMinEnc]]
      exact get_nonMin4 v (by simp only [MAX_VALUE] at h4 ⊢; omega) rest hrest
    rw [if_neg (by omega)]
    rcases Nat.lt_or_ge v (MAX_VALUE 5) with h5 | h5
    · rw [if_pos h5,
        show beBytes 5 (v ||| TAG_PREFIX 5) = nonMinEnc 5 v from by simp [nonMinEnc]]
      exact get_nonMin5 v (by simp only [MAX_VALUE] at h5 ⊢; omega) rest hrest
    rw [if_neg (by omega)]
    rcases Nat.lt_or_ge v (MAX_VALUE 6) with h6 | h6
    · rw [if_pos h6,
        show beBytes 6 (v ||| TAG_PREFIX 6) = nonMinEnc 6 v from by simp [nonMinEnc]]
      exact get_nonMin6 v (by simp only [MAX_VALUE] at h6 ⊢; omega) rest hrest
    rw [if_neg (by omega)]
    rcases Nat.lt_or_ge v (MAX_VALUE 7) with h7 | h7
    · rw [if_pos h7,
        show beBytes 7 (v ||| TAG_PREFIX 7) = nonMinEnc 7 v from by simp [nonMinEnc]]
      exact get_nonMin7 v (by simp only [MAX_VALUE] at h7 ⊢; omega) rest hrest
    rw [if_neg (by omega)]
    rcases Nat.lt_or_ge v (MAX_VALUE 8) with h8 | h8
    · rw [if_pos h8,
        show beBytes 8 (v ||| TAG_PREFIX 8) = nonMinEnc 8 v from by simp [nonMinEnc]]
      exact get_nonMin8 v (by simp only [MAX_VALUE] at h8 ⊢; omega) rest hrest
    · rw [if_neg (by omega),
        show (0xff :: beBytes 8 v : List Nat) = nonMinEnc 9 v from by simp [nonMinEnc]]
      exact get_nonMin9 v hv rest hrest
  · rw [if_pos hc]
    exact get_encoded v hv rest hrest

/-! ### Sequences of values through one sink and cursor -/

theorem put_fast_eq (v : Nat) : put_prefix_uvarint MAX_LEN v = encoded v := by
  unfold put_prefix_uvarint
  rw [if_pos (le_refl _)]

theorem putSeq_lt (vs : List Nat) (hvs : ∀ v ∈ vs, v < 2 ^ 64) :
    ∀ b ∈ putSeq vs, b < 256 := by
  intro b hb
  unfold putSeq at hb
  rw [List.mem_flatten] at hb
  obtain ⟨l, hl, hbl⟩ := hb
  rw [List.mem_map] at hl
  obtain ⟨v, hv, rfl⟩ := hl
  rw [put_fast_eq] at hbl
  exact encoded_lt v (hvs v hv) b hbl

theorem getSeq_putSeq (vs : List Nat) (hvs : ∀ v ∈ vs, v < 2 ^ 64) :
    getSeq vs.length (putSeq vs) = (vs, []) := by
  induction vs with
  | nil => simp [putSeq, getSeq]
  | cons v vs ih =>
    have hv : v < 2 ^ 64 := hvs v (List.mem_cons_self v vs)
    have hvs' : ∀ w ∈ vs, w < 2 ^ 64 := fun w hw => hvs w (List.mem_cons_of_mem v hw)
    have hput : putSeq (v :: vs) = encoded v ++ putSeq vs := by
      unfold putSeq
      rw [List.map_cons, List.flatten_cons, put_fast_eq]
    rw [List.length_cons, hput]
    rw [getSeq, get_encoded v hv (putSeq vs) (putSeq_lt vs hvs')]
    simp [ih hvs']

/-! ### Truncated input and totality of the buffer-layer reader -/

theorem get_truncated (tag : Nat) (rest : List Nat) (htag : tag < 256)
    (h1 : 1 ≤ leading_ones tag) (hshort : rest.length < leading_ones tag) :
    get_prefix_uvarint (tag :: rest) = some (none, []) := by
  have hgt : 0x7f < tag := by
    by_contra hle
    rw [leading_ones_of_le_7f tag htag (by omega)] at h1
    omega
  have hk8 : leading_ones tag ≤ 8 := (leading_ones_bounds tag htag hgt).2
  rw [get_prefix_uvarint.eq_def,
    if_neg (by simp only [List.length_cons, MAX_LEN]; omega)]
  simp only []
  rw [if_neg (by simp only [MAX_1BYTE_TAG, MAX_VALUE]; omega)]
  unfold get_prefix_uvarint_slow
  rw [if_pos hshort]

theorem read_be_isSome (n : Nat) (p : List Nat) (h : n ≤ p.length) :
    (read_be n p).isSome := by
  rw [read_be, if_pos h]
  rfl

theorem decode_isSome (p : List Nat) (h : 9 ≤ p.length) :
    (decode_prefix_uvarint p).isSome := by
  rcases p with _ | ⟨tag, rest⟩
  · simp at h
  simp only [List.length_cons] at h
  simp only [decode_prefix_uvarint]
  split
  · rfl
  · rw [decode_prefix_uvarint_slow.eq_def]
    split
    all_goals
      rw [read_be, if_pos (by simp only [List.length_cons, List.length_drop]; omega)]
      simp

theorem get_slow_isSome (s : List Nat) (tag : Nat) (htag : tag < 256) (hgt : 0x7f < tag) :
    (get_prefix_uvarint_slow s tag).isSome := by
  obtain ⟨hk1, hk8⟩ := leading_ones_bounds tag htag hgt
  simp only [get_prefix_uvarint_slow]
  split
  · rfl
  · rename_i hlen
    obtain ⟨k, hk⟩ : ∃ k, leading_ones tag = k := ⟨_, rfl⟩
    rw [hk] at hk1 hk8 hlen ⊢
    interval_cases k <;> simp [get_uint, Nat.not_lt.mp hlen]

theorem get_isSome (s : List Nat) (hs : ∀ b ∈ s, b < 256) :
    (get_prefix_uvarint s).isSome := by
  rw [get_prefix_uvarint.eq_def]
  split
  · rename_i h
    have hd := decode_isSome s h
    rcases hdec : decode_prefix_uvarint s with _ | pr
    · rw [hdec] at hd
      simp at hd
    · simp [hdec]
  · rename_i h
    split
    · rfl
    · rename_i tag rest
      split
      · rfl
      · rename_i htag
        have htlt : tag < 256 := hs tag (List.mem_cons_self _ _)
        exact get_slow_isSome rest tag htlt
          (by simp only [MAX_1BYTE_TAG, MAX_VALUE] at htag; omega)

/-! ### Byte-level characterisation of the raw decoder -/

theorem decode_characterization (tag : Nat) (rest : List Nat) (htag : tag < 256)
    (hrest : ∀ b ∈ rest, b < 256) (hlen : 8 ≤ rest.length) :
    decode_prefix_uvarint (tag :: rest)
      = some (if tag ≤ 0x7f then (tag, 1)
          else if leading_ones tag = 8 then (fromBE (rest.take 8), 9)
          else (fromBE ((tag :: rest).take (leading_ones tag + 1))
                  &&& MAX_VALUE (leading_ones tag + 1), leading_ones tag + 1)) := by
  rcases le_or_lt tag 0x7f with hle | hgt
  · rw [decode_tag1 tag hle rest, if_pos hle]
  obtain ⟨hk1, hk8⟩ := leading_ones_bounds tag htag hgt
  rw [if_neg (by omega)]
  rcases rest with _ | ⟨r1, _ | ⟨r2, _ | ⟨r3, _ | ⟨r4, _ | ⟨r5, _ | ⟨r6, _ | ⟨r7, _ | ⟨r8, rest'⟩⟩⟩⟩⟩⟩⟩⟩
  · exact absurd hlen (by simp)
  · exact absurd hlen (by simp)
  · exact absurd hlen (by simp)
  · exact absurd hlen (by simp)
  · exact absurd hlen (by simp)
  · exact absurd hlen (by simp)
  · exact absurd hlen (by simp)
  · exact absurd hlen (by simp)
  have hb1 : r1 < 256 := hrest r1 (by simp)
  have hb2 : r2 < 256 := hrest r2 (by simp)
  have hb3 : r3 < 256 := hrest r3 (by simp)
  have hb4 : r4 < 256 := hrest r4 (by simp)
  have hb5 : r5 < 256 := hrest r5 (by simp)
  have hb6 : r6 < 256 := hrest r6 (by simp)
  have hb7 : r7 < 256 := hrest r7 (by simp)
  have hb8 : r8 < 256 := hrest r8 (by simp)
  simp only [decode_prefix_uvarint]
  rw [if_neg (by simp only [MAX_1BYTE_TAG, MAX_VALUE]; omega)]
  rw [decode_prefix_uvarint_slow.eq_def]
  obtain ⟨k, hk⟩ : ∃ k, leading_ones tag = k := ⟨_, rfl⟩
  rw [hk] at hk1 hk8 ⊢
  interval_cases k
  · simp only []
    rw [read_be, if_pos (by simp only [List.length_cons]; omega), if_neg (by norm_num)]
    simp only [List.take_succ_cons, List.take_zero, fromBE, List.foldl, Option.map_some',
      Option.some.injEq, Prod.mk.injEq, Nat.shiftRight_eq_div_pow,
      show (1 : Nat) + 1 = 2 from rfl,
      show MAX_VALUE 2 = 2 ^ 14 - 1 by norm_num [MAX_VALUE], Nat.and_pow_two_sub_one_eq_mod]
  · simp only []
    rw [read_be, if_pos (by simp only [List.length_cons]; omega), if_neg (by norm_num)]
    simp only [List.take_succ_cons, List.take_zero, fromBE, List.foldl, Option.map_some',
      Option.some.injEq, Prod.mk.injEq, Nat.shiftRight_eq_div_pow,
      show (2 : Nat) + 1 = 3 from rfl,
      show MAX_VALUE 3 = 2 ^ 21 - 1 by norm_num [MAX_VALUE], Nat.and_pow_two_sub_one_eq_mod]
    exact ⟨by omega, trivial⟩
  · simp only []
    rw [read_be, if_pos (by simp only [List.length_cons]; omega), if_neg (by norm_num)]
    simp only [List.take_succ_cons, List.take_zero, fromBE, List.foldl, Option.map_some',
      Option.some.injEq, Prod.mk.injEq, Nat.shiftRight_eq_div_pow,
      show (3 : Nat) + 1 = 4 from rfl,
      show MAX_VALUE 4 = 2 ^ 28 - 1 by norm_num [MAX_VALUE], Nat.and_pow_two_sub_one_eq_mod]
  · simp only []
    rw [read_be, if_pos (by simp only [List.length_cons]; omega), if_neg (by norm_num)]
    simp only [List.take_succ_cons, List.take_zero, fromBE, List.foldl, Option.map_some',
      Option.some.injEq, Prod.mk.injEq, Nat.shiftRight_eq_div_pow,
      show (4 : Nat) + 1 = 5 from rfl,
      show MAX_VALUE 5 = 2 ^ 35 - 1 by norm_num [MAX_VALUE], Nat.and_pow_two_sub_one_eq_mod]
    exact ⟨by omega, trivial⟩
  · simp only []
    rw [read_be, if_pos (by simp only [List.length_cons]; omega), if_neg (by norm_num)]
    simp only [List.take_succ_cons, List.take_zero, fromBE, List.foldl, Option.map_some',
      Option.some.injEq, Prod.mk.injEq, Nat.shiftRight_eq_div_pow,
      show (5 : Nat) + 1 = 6 from rfl,
      show MAX_VALUE 6 = 2 ^ 42 - 1 by norm_num [MAX_VALUE], Nat.and_pow_two_sub_one_eq_mod]
    exact ⟨by omega, trivial⟩
  · simp only []
    rw [read_be, if_pos (by simp only [List.length_cons]; omega), if_neg (by norm_num)]
    simp only [List.take_succ_cons, List.take_zero, fromBE, List.foldl, Option.map_some',
      Option.some.injEq, Prod.mk.injEq, Nat.shiftRight_eq_div_pow,
      show (6 : Nat) + 1 = 7 from rfl,
      show MAX_VALUE 7 = 2 ^ 49 - 1 by norm_num [MAX_VALUE], Nat.and_pow_two_sub_one_eq_mod]
    exact ⟨by omega, trivial⟩
  · simp only []
    rw [read_be, if_pos (by simp only [List.length_cons]; omega), if_neg (by norm_num)]
    simp only [List.take_succ_cons, List.take_zero, fromBE, List.foldl, Option.map_some',
      Option.some.injEq, Prod.mk.injEq, Nat.shiftRight_eq_div_pow,
      show (7 : Nat) + 1 = 8 from rfl,
      show MAX_VALUE 8 = 2 ^ 56 - 1 by norm_num [MAX_VALUE], Nat.and_pow_two_sub_one_eq_mod]
  · simp only []
    simp only [List.drop_succ_cons, List.drop_zero]
    rw [read_be, if_pos (by simp only [List.length_cons]; omega)]
    simp only [List.take_succ_cons, List.take_zero, Option.map_some']
    rw [if_pos trivial]

/-! ### Claim theorems -/

/-- Claim C1: for every `u64` value `v`, encoding `v` with the raw unchecked encoder
into a buffer of at least `MAX_LEN = 9` bytes (the written bytes followed by whatever
the buffer already held) and then decoding from that buffer with the raw unchecked
decoder returns exactly `(v, len)`, where `len` is the length reported by the
encoder. -/
theorem C1_raw_roundtrip (v : Nat) (hv : v < 2 ^ 64) (rest : List Nat) :
    decode_prefix_uvarint ((encode_prefix_uvarint v).1 ++ rest)
      = some (v, (encode_prefix_uvarint v).2) :=
  decode_encode_raw v hv rest

theorem C1_raw_roundtrip_witness :
    decode_prefix_uvarint ((encode_prefix_uvarint 300).1 ++ [7, 7, 7, 7, 7, 7, 7])
      = some (300, (encode_prefix_uvarint 300).2) :=
  C1_raw_roundtrip 300 (by decide) [7, 7, 7, 7, 7, 7, 7]

/-- Claim C2: the minimality table holds for the raw encoder (each boundary value of
length `n` encodes in exactly `n` bytes and the next value in `n + 1`), but the claim
fails for the buffer write path: with a contiguous chunk smaller than 9 bytes,
`put_prefix_uvarint` falls into `put_prefix_uvarint_slow`, whose `<` comparisons (the
raw encoder uses `≤`) emit 3 bytes for `v = MAX_VALUE 2 = 0x3fff` where the minimal
length is 2 — a code bug at the boundary values `MAX_VALUE n`, `n = 2..8`. -/
theorem C2_minimality_and_slow_path_bug :
    ((encode_prefix_uvarint 0x7f).2 = 1 ∧ (encode_prefix_uvarint 0x80).2 = 2
      ∧ (encode_prefix_uvarint 0x3fff).2 = 2 ∧ (encode_prefix_uvarint 0x4000).2 = 3
      ∧ (encode_prefix_uvarint 0x1fffff).2 = 3 ∧ (encode_prefix_uvarint 0x200000).2 = 4
      ∧ (encode_prefix_uvarint 0xfffffff).2 = 4 ∧ (encode_prefix_uvarint 0x10000000).2 = 5
      ∧ (encode_prefix_uvarint 0x7ffffffff).2 = 5
      ∧ (encode_prefix_uvarint 0x800000000).2 = 6
      ∧ (encode_prefix_uvarint 0x3ffffffffff).2 = 6
      ∧ (encode_prefix_uvarint 0x40000000000).2 = 7
      ∧ (encode_prefix_uvarint 0x1ffffffffffff).2 = 7
      ∧ (encode_prefix_uvarint 0x2000000000000).2 = 8
      ∧ (encode_prefix_uvarint 0xffffffffffffff).2 = 8
      ∧ (encode_prefix_uvarint 0x100000000000000).2 = 9
      ∧ (encode_prefix_uvarint 0xffffffffffffffff).2 = 9)
    ∧ (put_prefix_uvarint 5 0x3fff).length = 3
    ∧ (put_prefix_uvarint 9 0x3fff).length = 2 := by
  decide

/-- Claim C3: the byte sequence appended by the bounds-checked slow write path is NOT
always identical to the raw encoder's bytes: at `v = 0x3fff` the slow path appends
`[0xc0, 0x3f, 0xff]` (a 3-byte form) while the raw encoder commits `[0xbf, 0xff]`,
because `put_prefix_uvarint_slow` compares with `<` where `encode_prefix_uvarint_slow`
uses `≤` — a code bug. -/
theorem C3_slow_path_not_raw_bytes :
    put_prefix_uvarint_slow 0x3fff = [0xc0, 0x3f, 0xff]
    ∧ encoded 0x3fff = [0xbf, 0xff]
    ∧ put_prefix_uvarint_slow 0x3fff ≠ encoded 0x3fff := by
  decide

/-- Claim C4: for every `i64` value `v` (including `i64::MIN` and `i64::MAX`),
`zigzag_decode (zigzag_encode v) = v`, and a signed value written with
`put_prefix_varint` (whatever the sink's chunk size `c`) reads back through
`get_prefix_varint` as `Some v` with the cursor consumed. -/
theorem C4_signed_roundtrip (v : Int) (c : Nat) (h1 : -(2 ^ 63) ≤ v) (h2 : v < 2 ^ 63) :
    zigzag_decode (zigzag_encode v) = v
    ∧ get_prefix_varint (put_prefix_varint c v) = some (some v, []) := by
  refine ⟨zigzag_decode_encode v h1 h2, ?_⟩
  unfold get_prefix_varint put_prefix_varint
  have hu : zigzag_encode v < 2 ^ 64 := zigzag_encode_lt v
  have hput := get_put c (zigzag_encode v) hu [] (by simp)
  rw [List.append_nil] at hput
  rw [hput]
  simp [zigzag_decode_encode v h1 h2]

theorem C4_signed_roundtrip_witness :
    zigzag_decode (zigzag_encode (-(2 ^ 63))) = -(2 ^ 63)
    ∧ get_prefix_varint (put_prefix_varint 0 (-(2 ^ 63)))
        = some (some (-(2 ^ 63)), []) :=
  C4_signed_roundtrip (-(2 ^ 63)) 0 (by decide) (by decide)

/-- Claim C5: a cursor whose first byte has `k ≥ 1` leading one-bits but which holds
fewer than `k` further bytes makes `get_prefix_uvarint` return `None` (not a panic)
with the cursor fully exhausted, and on the empty cursor it returns `None`. -/
theorem C5_truncated_input (tag : Nat) (rest : List Nat) (htag : tag < 256)
    (h1 : 1 ≤ leading_ones tag) (hshort : rest.length < leading_ones tag) :
    get_prefix_uvarint (tag :: rest) = some (none, [])
    ∧ get_prefix_uvarint [] = some (none, []) :=
  ⟨get_truncated tag rest htag h1 hshort, by decide⟩

theorem C5_truncated_input_witness :
    get_prefix_uvarint (0xc0 :: [0x12]) = some (none, [])
    ∧ get_prefix_uvarint [] = some (none, []) :=
  C5_truncated_input 0xc0 [0x12] (by decide) (by decide) (by decide)

/-- Claim C6: on any buffer of at least 9 bytes, the raw decoder returns `(tag, 1)` when
byte 0 is at most `0x7f`; otherwise, with `k` the number of leading one-bits of byte 0,
it consumes `k + 1` bytes, the value being the big-endian `u64` read from bytes 1–8
when `k = 8` (byte 0 contributing nothing), and otherwise the big-endian reassembly of
byte 0 with the next `k` bytes masked by `MAX_VALUE (k + 1)`. -/
theorem C6_decoder_characterization (tag : Nat) (rest : List Nat) (htag : tag < 256)
    (hrest : ∀ b ∈ rest, b < 256) (hlen : 8 ≤ rest.length) :
    decode_prefix_uvarint (tag :: rest)
      = some (if tag ≤ 0x7f then (tag, 1)
          else if leading_ones tag = 8 then (fromBE (rest.take 8), 9)
          else (fromBE ((tag :: rest).take (leading_ones tag + 1))
                  &&& MAX_VALUE (leading_ones tag + 1), leading_ones tag + 1)) :=
  decode_characterization tag rest htag hrest hlen

theorem C6_decoder_characterization_witness :
    decode_prefix_uvarint (0xc3 :: [1, 2, 3, 4, 5, 6, 7, 8])
      = some (if 0xc3 ≤ 0x7f then (0xc3, 1)
          else if leading_ones 0xc3 = 8 then (fromBE ([1, 2, 3, 4, 5, 6, 7, 8].take 8), 9)
          else (fromBE ((0xc3 :: [1, 2, 3, 4, 5, 6, 7, 8]).take (leading_ones 0xc3 + 1))
                  &&& MAX_VALUE (leading_ones 0xc3 + 1), leading_ones 0xc3 + 1)) :=
  C6_decoder_characterization 0xc3 [1, 2, 3, 4, 5, 6, 7, 8] (by decide) (by decide)
    (by decide)

/-- Claim C7: writing any sequence of `u64` values into one sink with
`put_prefix_uvarint` and reading back with repeated `get_prefix_uvarint` cursor reads
reproduces the sequence exactly and leaves the cursor empty; in particular
`[0x7F, 0x3FF, 0x1FFFFF]` gives a 6-byte buffer (lengths 1+2+3) that decodes back to
those three values, fully consuming the buffer. -/
theorem C7_sequence_roundtrip (vs : List Nat) (hvs : ∀ v ∈ vs, v < 2 ^ 64) :
    getSeq vs.length (putSeq vs) = (vs, [])
    ∧ (putSeq [0x7f, 0x3ff, 0x1fffff]).length = 6
    ∧ getSeq 3 (putSeq [0x7f, 0x3ff, 0x1fffff]) = ([0x7f, 0x3ff, 0x1fffff], []) :=
  ⟨getSeq_putSeq vs hvs, by decide, by decide⟩

theorem C7_sequence_roundtrip_witness :
    getSeq ([300, 0, 18446744073709551615] : List Nat).length
        (putSeq [300, 0, 18446744073709551615])
      = ([300, 0, 18446744073709551615], [])
    ∧ (putSeq [0x7f, 0x3ff, 0x1fffff]).length = 6
    ∧ getSeq 3 (putSeq [0x7f, 0x3ff, 0x1fffff]) = ([0x7f, 0x3ff, 0x1fffff], []) :=
  C7_sequence_roundtrip [300, 0, 18446744073709551615] (by decide)

/-- Claim C8: `zigzag_encode` maps `0, -1, 1, -2, 2` to `0, 1, 2, 3, 4`: it alternates
negative and positive values in order of magnitude. -/
theorem C8_zigzag_order :
    zigzag_encode 0 = 0 ∧ zigzag_encode (-1) = 1 ∧ zigzag_encode 1 = 2
    ∧ zigzag_encode (-2) = 3 ∧ zigzag_encode 2 = 4 := by
  decide

/-- Claim C9: the decoder accepts non-minimal encodings: for every length `n` in `2..=9`
and every value `v` within the `n`-byte capacity, the `n`-byte wire form made by OR-ing
the `n`-byte tag prefix into `v` decodes through `get_prefix_uvarint` to `Some v`,
consuming exactly `n` bytes, even when `v` would fit in fewer. -/
theorem C9_nonminimal_accepted (n v : Nat) (rest : List Nat) (h2 : 2 ≤ n) (h9 : n ≤ 9)
    (hv : v ≤ MAX_VALUE n) (hrest : ∀ b ∈ rest, b < 256) :
    get_prefix_uvarint (nonMinEnc n v ++ rest) = some (some v, rest) := by
  interval_cases n
  · exact get_nonMin2 v hv rest hrest
  · exact get_nonMin3 v hv rest hrest
  · exact get_nonMin4 v hv rest hrest
  · exact get_nonMin5 v hv rest hrest
  · exact get_nonMin6 v hv rest hrest
  · exact get_nonMin7 v hv rest hrest
  · exact get_nonMin8 v hv rest hrest
  · exact get_nonMin9 v (by simp only [MAX_VALUE] at hv; omega) rest hrest

theorem C9_nonminimal_accepted_witness :
    get_prefix_uvarint (nonMinEnc 2 0 ++ []) = some (some 0, []) :=
  C9_nonminimal_accepted 2 0 [] (by decide) (by decide) (by decide) (by decide)

/-- Claim C10: `get_prefix_uvarint` and `get_prefix_varint` are total over every finite
byte buffer: for arbitrary contents (any bytes `0x00..0xff`) and lengths they produce a
result — `Some` or `None` — and never hit a `bytes` primitive panic. -/
theorem C10_reader_total (s : List Nat) (hs : ∀ b ∈ s, b < 256) :
    (get_prefix_uvarint s).isSome ∧ (get_prefix_varint s).isSome := by
  refine ⟨get_isSome s hs, ?_⟩
  unfold get_prefix_varint
  rcases h : get_prefix_uvarint s with _ | pr
  · have hd := get_isSome s hs
    rw [h] at hd
    simp at hd
  · simp [h]

theorem C10_reader_total_witness :
    (get_prefix_uvarint [0xff]).isSome ∧ (get_prefix_varint [0xff]).isSome :=
  C10_reader_total [0xff] (by decide)

end PrefixVarint
